import Mathlib

/-!
# godownload: the instrumented download pipeline

A shallow embedding of `main.go` (signed request construction, resolution of the
download target, the progress-reporting writer and the streaming download) and
the properties of it that the specification states.

Conventions of the embedding

* Go `string` values are Lean `String`s (UTF-8 text); `[]byte` values are
  `List UInt8`.
* `int64` values are `Int`s; arithmetic that can overflow is wrapped by `wrapInt64`.
* `float64` values are the type `F64` below: IEEE-754 binary64 with
  round-to-nearest-even, computed exactly on integers.
* Calls that reach outside the program (`http.Get`, `io.ReadAll`, `os.Create`,
  the clock, the body stream, the file system) take their outcome from an
  explicit environment argument and thread an explicit `World` state.
-/

namespace GoDownload

/-! ## Machine integers -/

/-- Two's complement wrap-around of an integer into the `int64` range. -/
def wrapInt64 (x : Int) : Int := (x + 2 ^ 63) % 2 ^ 64 - 2 ^ 63

/-- The value is representable as an `int64`. -/
def isInt64 (x : Int) : Prop := -(2 ^ 63) ≤ x ∧ x < 2 ^ 63

instance (x : Int) : Decidable (isInt64 x) := by unfold isInt64; infer_instance

/-! ## float64 -/

/-- An IEEE-754 binary64 value: NaN, a signed infinity, or the finite number
`(-1)^neg * mant * 2^exp`.  Values produced by the operations below are in
canonical form: `mant < 2^53`, `-1074 ≤ exp ≤ 971`, `2^52 ≤ mant` unless
`exp = -1074`, and zero is `fin neg 0 0`. -/
inductive F64 where
  | nan : F64
  | inf (neg : Bool) : F64
  | fin (neg : Bool) (mant : Nat) (exp : Int) : F64
deriving DecidableEq, Repr

/-- Floor of the binary logarithm, by halving (`fuel` bounds the number of halvings). -/
def ilog2Aux : Nat → Nat → Nat
  | 0, _ => 0
  | fuel + 1, n => if n < 2 then 0 else ilog2Aux fuel (n / 2) + 1

/-- Floor of the binary logarithm of `n` (0 for `n = 0`). -/
def ilog2 (n : Nat) : Nat := ilog2Aux n n

/-- Nearest integer to `n / d`, ties to even (`d > 0`). -/
def roundNE (n d : Nat) : Nat :=
  let q := n / d
  let r := n % d
  if 2 * r < d then q
  else if d < 2 * r then q + 1
  else if q % 2 = 0 then q else q + 1

/-- Numerator and denominator of `(n / d) / 2^s`. -/
def scaleBy (n d : Nat) (s : Int) : Nat × Nat :=
  if 0 ≤ s then (n, d * 2 ^ s.toNat) else (n * 2 ^ (-s).toNat, d)

/-- Floor of the binary logarithm of the positive rational `n / d`. -/
def ratLog2 (n d : Nat) : Int :=
  let k : Int := (ilog2 n : Int) - (ilog2 d : Int)
  let sc := scaleBy n d k
  if sc.2 ≤ sc.1 then k else k - 1

/-- The binary64 value nearest to `(-1)^neg * n / d` (`d > 0`), ties to even,
with gradual underflow and overflow to infinity. -/
def F64.ofRatio (neg : Bool) (n d : Nat) : F64 :=
  if n = 0 then F64.fin neg 0 0
  else
    let e : Int := max (ratLog2 n d - 52) (-1074)
    let sc := scaleBy n d e
    let m := roundNE sc.1 sc.2
    let m1 := if m = 2 ^ 53 then 2 ^ 52 else m
    let e1 := if m = 2 ^ 53 then e + 1 else e
    if 971 < e1 then F64.inf neg
    else if m1 = 0 then F64.fin neg 0 0
    else F64.fin neg m1 e1

/-- The natural number nearest to `n` among those with at most 53 significant
bits, ties to even: the value of `float64(n)`. -/
def roundInt53 (n : Nat) : Nat :=
  roundNE n (2 ^ (ilog2 n - 52)) * 2 ^ (ilog2 n - 52)

/-- Conversion `float64(i)` of an integer. -/
def F64.ofInt (i : Int) : F64 := F64.ofRatio (decide (i < 0)) i.natAbs 1

/-- Unary minus. -/
def F64.neg : F64 → F64
  | F64.nan => F64.nan
  | F64.inf s => F64.inf (!s)
  | F64.fin s m e => F64.fin (!s) m e

/-- Float addition: the exact sum, rounded once. -/
def F64.add : F64 → F64 → F64
  | F64.nan, _ => F64.nan
  | _, F64.nan => F64.nan
  | F64.inf s, F64.inf t => if s = t then F64.inf s else F64.nan
  | F64.inf s, F64.fin _ _ _ => F64.inf s
  | F64.fin _ _ _, F64.inf t => F64.inf t
  | F64.fin s m e, F64.fin t m2 e2 =>
    let c := min e e2
    let a : Int := (if s then -1 else 1) * (m * 2 ^ (e - c).toNat : Nat)
    let b : Int := (if t then -1 else 1) * (m2 * 2 ^ (e2 - c).toNat : Nat)
    let r := a + b
    if r = 0 then F64.fin (s && t) 0 0
    else if 0 ≤ c then F64.ofRatio (decide (r < 0)) (r.natAbs * 2 ^ c.toNat) 1
    else F64.ofRatio (decide (r < 0)) r.natAbs (2 ^ (-c).toNat)

/-- Float subtraction. -/
def F64.sub (x y : F64) : F64 := F64.add x (F64.neg y)

/-- Float division.  A zero divisor does not trap: it gives an infinity, or NaN
for `0 / 0`. -/
def F64.div : F64 → F64 → F64
  | F64.nan, _ => F64.nan
  | _, F64.nan => F64.nan
  | F64.inf _, F64.inf _ => F64.nan
  | F64.inf s, F64.fin t _ _ => F64.inf (xor s t)
  | F64.fin s _ _, F64.inf t => F64.fin (xor s t) 0 0
  | F64.fin s m e, F64.fin t m2 e2 =>
    if m2 = 0 then (if m = 0 then F64.nan else F64.inf (xor s t))
    else if e2 ≤ e then F64.ofRatio (xor s t) (m * 2 ^ (e - e2).toNat) m2
    else F64.ofRatio (xor s t) m (m2 * 2 ^ (e2 - e).toNat)

/-- The comparison `x < y` of two floats: false when one of them is NaN, and
`-0` is not below `+0`. -/
def F64.lt : F64 → F64 → Bool
  | F64.nan, _ => false
  | _, F64.nan => false
  | F64.inf s, F64.inf t => s && !t
  | F64.inf s, F64.fin _ _ _ => s
  | F64.fin _ _ _, F64.inf t => !t
  | F64.fin s m e, F64.fin t m2 e2 =>
    let c := min e e2
    let a : Int := (if s then -1 else 1) * (m * 2 ^ (e - c).toNat : Nat)
    let b : Int := (if t then -1 else 1) * (m2 * 2 ^ (e2 - c).toNat : Nat)
    decide (a < b)

/-- The value is a number (neither NaN nor an infinity). -/
def F64.isFinite : F64 → Bool
  | F64.fin _ _ _ => true
  | _ => false

/-- The value is `+0` or `-0`. -/
def F64.isZero : F64 → Bool
  | F64.fin _ m _ => m == 0
  | _ => false

/-- The exact rational value of a finite float (0 for NaN and infinities). -/
def F64.toRat : F64 → ℚ
  | F64.fin s m e => (if s then -1 else 1) * (m : ℚ) * (2 : ℚ) ^ e
  | _ => 0

/-! ## Strings and formatting -/

/-- A Go `error` value; the `error` interface itself is `Option GoError`, with
`none` for `nil`. -/
structure GoError where
  msg : String
deriving DecidableEq, Repr

/-- An operand of `fmt.Sprintf`. -/
inductive Arg where
  | str (s : String) : Arg
  | int (i : Int) : Arg
  | float (x : F64) : Arg
deriving DecidableEq, Repr

/-- The verb `%d` on an `int64`: the decimal digits, with a leading `-` when negative. -/
def formatInt (i : Int) : String :=
  if i < 0 then "-" ++ Nat.repr i.natAbs else Nat.repr i.natAbs

/-- Left padding with `0` up to width `w`. -/
def padZeros (w : Nat) (s : String) : String :=
  String.mk (List.replicate (w - s.length) '0') ++ s

/-- The verb `%.<prec>f` on a `float64`: the exact value rounded to `prec`
decimals, ties to even; `NaN`, `+Inf` and `-Inf` for the special values. -/
def formatFloat (prec : Nat) : F64 → String
  | F64.nan => "NaN"
  | F64.inf false => "+Inf"
  | F64.inf true => "-Inf"
  | F64.fin s m e =>
    let sc := scaleBy (m * 10 ^ prec) 1 (-e)
    let k := roundNE sc.1 sc.2
    (if s then "-" else "") ++ Nat.repr (k / 10 ^ prec) ++
      (if prec = 0 then "" else "." ++ padZeros prec (Nat.repr (k % 10 ^ prec)))

/-- The interpreter of `fmt.Sprintf` for the directives this program uses:
`%s` on a string, `%d` on an integer, `%.Nf` (one digit `N`) on a float, and
`%%`.  Text outside directives is copied.  Any other directive, a missing,
mistyped or surplus operand is outside the model: `none`. -/
def sprintfAux : List Char → List Arg → Option String
  | [], [] => some ""
  | [], _ :: _ => none
  | '%' :: 's' :: rest, Arg.str s :: args => (sprintfAux rest args).map (fun r => s ++ r)
  | '%' :: 'd' :: rest, Arg.int i :: args =>
    (sprintfAux rest args).map (fun r => formatInt i ++ r)
  | '%' :: '.' :: d :: 'f' :: rest, Arg.float x :: args =>
    if d.isDigit then
      (sprintfAux rest args).map (fun r => formatFloat (d.toNat - '0'.toNat) x ++ r)
    else none
  | '%' :: '%' :: rest, args => (sprintfAux rest args).map (fun r => "%" ++ r)
  | '%' :: _, _ => none
  | c :: rest, args => (sprintfAux rest args).map (fun r => String.singleton c ++ r)

/-- The function `fmt.Sprintf` (the empty string outside the modelled directives). -/
def Sprintf (format : String) (args : List Arg) : String :=
  (sprintfAux format.toList args).getD ""

/-! ## Time -/

/-- The method `time.Duration.Seconds`, on a duration in nanoseconds. -/
def Duration.Seconds (d : Int) : F64 :=
  let sec := d.tdiv 1000000000
  let nsec := d.tmod 1000000000
  F64.add (F64.ofInt sec) (F64.div (F64.ofInt nsec) (F64.ofInt 1000000000))

/-! ## The progress writer -/

/-- The part of a `widget.ProgressBar` the program touches: the bounds `Min`
and `Max` and the current `Value`. -/
structure ProgressBar where
  Min : F64
  Max : F64
  Value : F64
deriving DecidableEq, Repr

/-- The function `widget.NewProgressBar`: a bar from 0 to 1, at 0. -/
def NewProgressBar : ProgressBar :=
  { Min := F64.ofInt 0, Max := F64.ofInt 1, Value := F64.ofInt 0 }

/-- The method `(*widget.ProgressBar).SetValue`: it stores the value and
refreshes the widget, and the renderer of the bar, when it refreshes, brings
`Value` into the range of the bar (`if Value < Min then Value = Min`, then
`if Value > Max then Value = Max`). -/
def ProgressBar.SetValue (b : ProgressBar) (v : F64) : ProgressBar :=
  let v1 := if F64.lt v b.Min then b.Min else v
  let v2 := if F64.lt b.Max v1 then b.Max else v1
  { b with Value := v2 }

/-- The part of a `widget.Label` the program touches. -/
structure Label where
  Text : String
deriving DecidableEq, Repr

/-- The method `(*widget.Label).SetText`. -/
def Label.SetText (_l : Label) (t : String) : Label := { Text := t }

/-- The struct `progressWriter`; `startTime` is the monotonic clock reading, in
nanoseconds, and the three widgets stand for the objects the pointers refer to. -/
structure progressWriter where
  totalSize : Int
  downloadedSize : Int
  startTime : Int
  progress : ProgressBar
  speed : Label
  remaining : Label
deriving DecidableEq, Repr

/-- The counter after `pw.downloadedSize += int64(n)`, `n = len(p)`. -/
def progressWriter.newDownloadedSize (pw : progressWriter) (p : List UInt8) : Int :=
  wrapInt64 (pw.downloadedSize + (p.length : Int))

/-- The argument of `pw.progress.SetValue` in `Write`. -/
def progressWriter.fraction (pw : progressWriter) (p : List UInt8) : F64 :=
  F64.div (F64.ofInt (pw.newDownloadedSize p)) (F64.ofInt pw.totalSize)

/-- The local `downloadSpeed` of `Write`; `sinceStart` is the duration
`time.Since(pw.startTime)`. -/
def progressWriter.downloadSpeed (pw : progressWriter) (p : List UInt8) (sinceStart : Int) : F64 :=
  let elapsedTime := Duration.Seconds sinceStart
  F64.div (F64.ofInt (pw.newDownloadedSize p)) elapsedTime

/-- The local `remainingTime` of `Write`. -/
def progressWriter.remainingTime (pw : progressWriter) (p : List UInt8) (sinceStart : Int) : F64 :=
  F64.div (F64.sub (F64.ofInt pw.totalSize) (F64.ofInt (pw.newDownloadedSize p)))
    (pw.downloadSpeed p sinceStart)

/-- The method `(*progressWriter).Write`: the writer afterwards and the two
results `(int, error)`. -/
def progressWriter.Write (pw : progressWriter) (p : List UInt8) (sinceStart : Int) :
    progressWriter × Int × Option GoError :=
  let n : Int := p.length
  let downloadSpeed := pw.downloadSpeed p sinceStart
  let remainingTime := pw.remainingTime p sinceStart
  ({ pw with
      downloadedSize := pw.newDownloadedSize p
      progress := pw.progress.SetValue (pw.fraction p)
      speed := pw.speed.SetText
        (Sprintf "下载速度: %.2f KB/s" [Arg.float (F64.div downloadSpeed (F64.ofInt 1024))])
      remaining := pw.remaining.SetText (Sprintf "剩余时间: %.2f s" [Arg.float remainingTime]) },
   n, none)

/-- A run of `Write` calls: each item is the chunk and the duration since
`startTime` at that call. -/
def progressWriter.writeAll (pw : progressWriter) : List (List UInt8 × Int) → progressWriter
  | [] => pw
  | (p, t) :: rest => progressWriter.writeAll (pw.Write p t).1 rest

/-! ## The world outside the program -/

/-- The two kinds of handle `downloadFile` and `loadUrlFromCDN` hold: the
response body of an HTTP GET and the destination file. -/
inductive Handle where
  | body : Handle
  | file : Handle
deriving DecidableEq, Repr

/-- A handle is acquired (opened) or released (closed). -/
inductive Event where
  | acquire (h : Handle) : Event
  | release (h : Handle) : Event
deriving DecidableEq, Repr

/-- The state outside the program: the file system (path and content, the
first entry for a path counts), the log of handle events (oldest first) and
the lines printed on standard output. -/
structure World where
  files : List (String × List UInt8)
  log : List Event
  stdout : List (List UInt8)
deriving DecidableEq, Repr

/-- Content of the file at `path`, if it exists. -/
def World.readFile (w : World) (path : String) : Option (List UInt8) :=
  w.files.lookup path

/-- Record a handle event. -/
def World.record (w : World) (e : Event) : World := { w with log := w.log ++ [e] }

/-- The file at `path` now exists and is empty (created or truncated). -/
def World.truncate (w : World) (path : String) : World :=
  { w with files := (path, []) :: w.files.filter (fun f => f.1 != path) }

/-- Bytes appended to the file at `path`. -/
def World.append (w : World) (path : String) (data : List UInt8) : World :=
  { w with files :=
      (path, (w.readFile path).getD [] ++ data) :: w.files.filter (fun f => f.1 != path) }

/-- An `*http.Response`: the `ContentLength` field (`-1` when unknown) and the
body stream, given by the data of its successive non-final `Read` results and
the error that ends it (`none` for `io.EOF`). -/
structure Response where
  ContentLength : Int
  Body : List (List UInt8)
  BodyErr : Option GoError
deriving DecidableEq, Repr

/-- The outcomes of the calls that leave the program.
* `httpGet url`: the result of `http.Get(url)`;
* `createErr path`: the error of `os.Create(path)`, if it fails;
* `fileWrite i`: the outcome of the `i`-th `Write` on the destination file,
  `none` when the whole chunk is written, `some (k, e)` when `k` bytes are
  written and the error `e` is returned;
* `now`: the clock reading of `time.Now()`;
* `since i`: the duration `time.Since(startTime)` at the `i`-th `Write` of the
  progress writer;
* `unixTime`: the result of `time.Now().Unix()`. -/
structure Env where
  httpGet : String → Except GoError Response
  createErr : String → Option GoError
  fileWrite : Nat → Option (Nat × GoError)
  now : Int
  since : Nat → Int
  unixTime : Int

/-! ## The download -/

/-- The result of `io.Copy`: the two results `(written, err)`, and the
progress writer and the world afterwards. -/
structure CopyResult where
  written : Int
  err : Option GoError
  pw : progressWriter
  world : World
deriving DecidableEq, Repr

/-- The call `io.Copy(out, io.TeeReader(resp.Body, pw))`, `out` being the file
at `path`.  Each `Read` of the tee reader that yields data first passes it to
`pw.Write`; the copy loop then writes it to the file.  A `Read` without data
and without error is skipped.  `i` counts the chunks passed on so far. -/
def ioCopy (env : Env) (path : String) (bodyErr : Option GoError) :
    List (List UInt8) → Nat → Int → progressWriter → World → CopyResult
  | [], _, written, pw, w => { written := written, err := bodyErr, pw := pw, world := w }
  | chunk :: rest, i, written, pw, w =>
    if chunk.length = 0 then ioCopy env path bodyErr rest i written pw w
    else
      match pw.Write chunk (env.since i) with
      | (pw1, _, some ew) =>
        -- the tee reader returns the error of its writer; the data read is still copied
        match env.fileWrite i with
        | none =>
          { written := written + chunk.length, err := some ew, pw := pw1,
            world := w.append path chunk }
        | some (k, e) =>
          { written := written + k, err := some e, pw := pw1,
            world := w.append path (chunk.take k) }
      | (pw1, _, none) =>
        match env.fileWrite i with
        | none =>
          ioCopy env path bodyErr rest (i + 1) (written + chunk.length) pw1
            (w.append path chunk)
        | some (k, e) =>
          { written := written + k, err := some e, pw := pw1,
            world := w.append path (chunk.take k) }

/-- What `downloadFile` leaves behind: the returned `error`, the world, and the
progress writer if one was created (its widgets are the widgets passed in). -/
structure DownloadResult where
  err : Option GoError
  world : World
  pw : Option progressWriter
deriving DecidableEq, Repr

/-- The function `downloadFile`.  The two deferred `Close` calls run when the
function returns, the later one first. -/
def downloadFile (env : Env) (w : World) (filepath url : String)
    (progress : ProgressBar) (speed remaining : Label) : DownloadResult :=
  match env.httpGet url with
  | Except.error err => { err := some err, world := w, pw := none }
  | Except.ok resp =>
    let w1 := w.record (Event.acquire Handle.body)
    -- defer resp.Body.Close()
    match env.createErr filepath with
    | some err =>
      { err := some err, world := w1.record (Event.release Handle.body), pw := none }
    | none =>
      let w2 := (w1.truncate filepath).record (Event.acquire Handle.file)
      -- defer out.Close()
      let totalSize := resp.ContentLength
      let pw : progressWriter :=
        { totalSize := totalSize, downloadedSize := 0, startTime := env.now,
          progress := progress, speed := speed, remaining := remaining }
      let r := ioCopy env filepath resp.BodyErr resp.Body 0 0 pw w2
      let w3 := (r.world.record (Event.release Handle.file)).record (Event.release Handle.body)
      match r.err with
      | some err => { err := some err, world := w3, pw := some r.pw }
      | none => { err := none, world := w3, pw := some r.pw }

/-- Sum of the chunk lengths of a run of `Write` calls. -/
def totalLength (calls : List (List UInt8 × Int)) : Int :=
  (calls.map (fun c => (c.1.length : Int))).sum

/-- The GET of `url` succeeds. -/
def Env.getOk (env : Env) (url : String) : Bool :=
  match env.httpGet url with
  | Except.ok _ => true
  | Except.error _ => false

/-- The creation of the file at `path` succeeds. -/
def Env.createOk (env : Env) (path : String) : Bool :=
  (env.createErr path).isNone

/-- The reads of a body that carry data. -/
def dataChunks (chunks : List (List UInt8)) : List (List UInt8) :=
  chunks.filter (fun c => c.length != 0)

/-- The progress writer `downloadFile` creates for a response. -/
def newProgressWriter (env : Env) (resp : Response) (progress : ProgressBar)
    (speed remaining : Label) : progressWriter :=
  { totalSize := resp.ContentLength, downloadedSize := 0, startTime := env.now,
    progress := progress, speed := speed, remaining := remaining }

/-- The streaming copy of a response body to the file at `path` succeeds: the
body ends with `io.EOF` and every write of a chunk to the file succeeds. -/
def Env.copyOk (env : Env) (resp : Response) : Prop :=
  resp.BodyErr = none ∧ ∀ j, j < (dataChunks resp.Body).length → env.fileWrite j = none

/-- The `Write` calls the copy makes on the progress writer when no write to
the file fails: one for each read that carries data, the `i`-th at the
duration `env.since i`. -/
def copyCalls (env : Env) : Nat → List (List UInt8) → List (List UInt8 × Int)
  | _, [] => []
  | i, chunk :: rest =>
    if chunk.length = 0 then copyCalls env i rest
    else (chunk, env.since i) :: copyCalls env (i + 1) rest

/-! ## MD5 and hexadecimal rendering -/

/-- The conversion `[]byte(s)`: the UTF-8 bytes of a string. -/
def stringBytes (s : String) : List UInt8 :=
  s.toList.flatMap String.utf8EncodeChar

/-- The table of the MD5 round constants, `floor (2^32 * |sin (i + 1)|)`. -/
def md5K : List Nat :=
  [0xd76aa478, 0xe8c7b756, 0x242070db, 0xc1bdceee,
   0xf57c0faf, 0x4787c62a, 0xa8304613, 0xfd469501,
   0x698098d8, 0x8b44f7af, 0xffff5bb1, 0x895cd7be,
   0x6b901122, 0xfd987193, 0xa679438e, 0x49b40821,
   0xf61e2562, 0xc040b340, 0x265e5a51, 0xe9b6c7aa,
   0xd62f105d, 0x02441453, 0xd8a1e681, 0xe7d3fbc8,
   0x21e1cde6, 0xc33707d6, 0xf4d50d87, 0x455a14ed,
   0xa9e3e905, 0xfcefa3f8, 0x676f02d9, 0x8d2a4c8a,
   0xfffa3942, 0x8771f681, 0x6d9d6122, 0xfde5380c,
   0xa4beea44, 0x4bdecfa9, 0xf6bb4b60, 0xbebfbc70,
   0x289b7ec6, 0xeaa127fa, 0xd4ef3085, 0x04881d05,
   0xd9d4d039, 0xe6db99e5, 0x1fa27cf8, 0xc4ac5665,
   0xf4292244, 0x432aff97, 0xab9423a7, 0xfc93a039,
   0x655b59c3, 0x8f0ccc92, 0xffeff47d, 0x85845dd1,
   0x6fa87e4f, 0xfe2ce6e0, 0xa3014314, 0x4e0811a1,
   0xf7537e82, 0xbd3af235, 0x2ad7d2bb, 0xeb86d391]

/-- The table of the MD5 rotation amounts. -/
def md5S : List Nat :=
  [7, 12, 17, 22, 7, 12, 17, 22, 7, 12, 17, 22, 7, 12, 17, 22,
   5, 9, 14, 20, 5, 9, 14, 20, 5, 9, 14, 20, 5, 9, 14, 20,
   4, 11, 16, 23, 4, 11, 16, 23, 4, 11, 16, 23, 4, 11, 16, 23,
   6, 10, 15, 21, 6, 10, 15, 21, 6, 10, 15, 21, 6, 10, 15, 21]

/-- Rotation to the left of a 32-bit word. -/
def rotl32 (x s : Nat) : Nat :=
  ((x <<< s) % 2 ^ 32) ||| (x >>> (32 - s))

/-- Bitwise complement of a 32-bit word. -/
def not32 (x : Nat) : Nat := x ^^^ 0xffffffff

/-- The `k` low bytes of `x`, least significant first. -/
def littleEndian : Nat → Nat → List Nat
  | 0, _ => []
  | k + 1, x => x % 256 :: littleEndian k (x / 256)

/-- The value of a list of bytes, least significant first. -/
def fromLittleEndian : List Nat → Nat
  | [] => 0
  | b :: rest => b + 256 * fromLittleEndian rest

/-- The message followed by the MD5 padding: the byte `0x80`, zero bytes up to
56 modulo 64, and the length in bits as 8 bytes. -/
def md5Pad (msg : List Nat) : List Nat :=
  msg ++ [0x80] ++ List.replicate ((119 - msg.length % 64) % 64) 0 ++
    littleEndian 8 (8 * msg.length % 2 ^ 64)

/-- The four state words of MD5. -/
structure MD5State where
  a : Nat
  b : Nat
  c : Nat
  d : Nat
deriving DecidableEq, Repr

/-- The initial state of MD5. -/
def md5Init : MD5State := { a := 0x67452301, b := 0xefcdab89, c := 0x98badcfe, d := 0x10325476 }

/-- One of the 64 steps of MD5 on the words `m` of a block. -/
def md5Step (m : List Nat) (st : MD5State) (i : Nat) : MD5State :=
  let f :=
    if i < 16 then (st.b &&& st.c) ||| (not32 st.b &&& st.d)
    else if i < 32 then (st.d &&& st.b) ||| (not32 st.d &&& st.c)
    else if i < 48 then st.b ^^^ st.c ^^^ st.d
    else st.c ^^^ (st.b ||| not32 st.d)
  let g :=
    if i < 16 then i
    else if i < 32 then (5 * i + 1) % 16
    else if i < 48 then (3 * i + 5) % 16
    else (7 * i) % 16
  let f1 := (f + st.a + md5K.getD i 0 + m.getD g 0) % 2 ^ 32
  { a := st.d, d := st.c, c := st.b, b := (st.b + rotl32 f1 (md5S.getD i 0)) % 2 ^ 32 }

/-- The sixteen 32-bit words of a 64-byte block. -/
def md5Words (block : List Nat) : List Nat :=
  (List.range 16).map (fun j => fromLittleEndian ((block.drop (4 * j)).take 4))

/-- The state after one 64-byte block. -/
def md5Block (st : MD5State) (block : List Nat) : MD5State :=
  let r := (List.range 64).foldl (md5Step (md5Words block)) st
  { a := (st.a + r.a) % 2 ^ 32, b := (st.b + r.b) % 2 ^ 32,
    c := (st.c + r.c) % 2 ^ 32, d := (st.d + r.d) % 2 ^ 32 }

/-- The state after the first `n` 64-byte blocks of `data`. -/
def md5Blocks : Nat → MD5State → List Nat → MD5State
  | 0, st, _ => st
  | n + 1, st, data => md5Blocks n (md5Block st (data.take 64)) (data.drop 64)

/-- The MD5 digest (RFC 1321) of a message: `hasher.Write(data)` on a new hash
followed by `hasher.Sum(nil)`. -/
def md5Sum (data : List UInt8) : List UInt8 :=
  let padded := md5Pad (data.map UInt8.toNat)
  let st := md5Blocks (padded.length / 64) md5Init padded
  (littleEndian 4 st.a ++ littleEndian 4 st.b ++ littleEndian 4 st.c ++ littleEndian 4 st.d).map
    UInt8.ofNat

/-- The hexadecimal digit of a value below 16. -/
def hexDigit (n : Nat) : Char :=
  if n < 10 then Char.ofNat (48 + n) else Char.ofNat (87 + n)

/-- The function `hex.EncodeToString`: two lower-case digits per byte. -/
def hexEncodeToString (data : List UInt8) : String :=
  String.mk (data.flatMap (fun b => [hexDigit (b.toNat / 16), hexDigit (b.toNat % 16)]))

/-- The function `getMD5Hash`. -/
def getMD5Hash (text : String) : String :=
  hexEncodeToString (md5Sum (stringBytes text))

/-! ## JSON decoding (`encoding/json`) -/

/-- A decoded JSON value; a number keeps its literal text. -/
inductive JValue where
  | null : JValue
  | bool (b : Bool) : JValue
  | number (lit : List Nat) : JValue
  | string (s : String) : JValue
  | array (items : List JValue) : JValue
  | object (members : List (String × JValue)) : JValue

/-- A JSON token; a string token holds the bytes between the quotes. -/
inductive Token where
  | lbrace : Token
  | rbrace : Token
  | lbrack : Token
  | rbrack : Token
  | colon : Token
  | comma : Token
  | str (raw : List Nat) : Token
  | num (lit : List Nat) : Token
  | word (letters : List Nat) : Token
deriving DecidableEq, Repr

/-- Value of a hexadecimal digit. -/
def hexVal (c : Nat) : Option Nat :=
  if 0x30 ≤ c ∧ c ≤ 0x39 then some (c - 0x30)
  else if 0x61 ≤ c ∧ c ≤ 0x66 then some (c - 0x61 + 10)
  else if 0x41 ≤ c ∧ c ≤ 0x46 then some (c - 0x41 + 10)
  else none

/-- Value of four hexadecimal digits. -/
def hex4 (a b c d : Nat) : Option Nat :=
  match hexVal a, hexVal b, hexVal c, hexVal d with
  | some x, some y, some z, some u => some (((x * 16 + y) * 16 + z) * 16 + u)
  | _, _, _, _ => none

/-- A UTF-8 continuation byte within the bounds `lo` and `hi`. -/
def inRange (lo hi b : Nat) : Bool := lo ≤ b && b ≤ hi

/-- The function `utf8.DecodeRune` on bytes that start with a byte of `0x80` or
more: the rune and the number of bytes it takes; the replacement rune `U+FFFD`
and one byte for an invalid or truncated encoding. -/
def decodeRune : List Nat → Nat × Nat
  | b0 :: b1 :: b2 :: b3 :: _ =>
    if inRange 0xC2 0xDF b0 && inRange 0x80 0xBF b1 then ((b0 % 32) * 64 + b1 % 64, 2)
    else if (b0 == 0xE0 && inRange 0xA0 0xBF b1 ||
        (inRange 0xE1 0xEC b0 || inRange 0xEE 0xEF b0) && inRange 0x80 0xBF b1 ||
        b0 == 0xED && inRange 0x80 0x9F b1) && inRange 0x80 0xBF b2 then
      (((b0 % 16) * 64 + b1 % 64) * 64 + b2 % 64, 3)
    else if (b0 == 0xF0 && inRange 0x90 0xBF b1 ||
        inRange 0xF1 0xF3 b0 && inRange 0x80 0xBF b1 ||
        b0 == 0xF4 && inRange 0x80 0x8F b1) && inRange 0x80 0xBF b2 && inRange 0x80 0xBF b3 then
      ((((b0 % 8) * 64 + b1 % 64) * 64 + b2 % 64) * 64 + b3 % 64, 4)
    else (0xFFFD, 1)
  | [b0, b1, b2] =>
    if inRange 0xC2 0xDF b0 && inRange 0x80 0xBF b1 then ((b0 % 32) * 64 + b1 % 64, 2)
    else if (b0 == 0xE0 && inRange 0xA0 0xBF b1 ||
        (inRange 0xE1 0xEC b0 || inRange 0xEE 0xEF b0) && inRange 0x80 0xBF b1 ||
        b0 == 0xED && inRange 0x80 0x9F b1) && inRange 0x80 0xBF b2 then
      (((b0 % 16) * 64 + b1 % 64) * 64 + b2 % 64, 3)
    else (0xFFFD, 1)
  | [b0, b1] =>
    if inRange 0xC2 0xDF b0 && inRange 0x80 0xBF b1 then ((b0 % 32) * 64 + b1 % 64, 2)
    else (0xFFFD, 1)
  | _ => (0xFFFD, 1)

/-- The function `unquoteBytes` on the bytes between the quotes of a string
literal, together with the checks of the scanner: escapes are decoded, a
surrogate pair makes one rune, a lone surrogate and invalid UTF-8 become
`U+FFFD`; a control character, a bare quote or an unknown escape is an error.
`fuel` bounds the number of runes. -/
def unquoteAux : Nat → List Nat → List Char → Option String
  | 0, _, _ => none
  | _ + 1, [], acc => some (String.mk acc.reverse)
  | fuel + 1, 0x5C :: rest, acc =>
    match rest with
    | 0x75 :: a :: b :: c :: d :: rest1 =>
      match hex4 a b c d with
      | none => none
      | some rr =>
        if 0xD800 ≤ rr ∧ rr < 0xE000 then
          match rest1 with
          | 0x5C :: 0x75 :: a1 :: b1 :: c1 :: d1 :: rest2 =>
            match hex4 a1 b1 c1 d1 with
            | some rr1 =>
              if rr < 0xDC00 ∧ 0xDC00 ≤ rr1 ∧ rr1 < 0xE000 then
                unquoteAux fuel rest2
                  (Char.ofNat (0x10000 + (rr - 0xD800) * 0x400 + (rr1 - 0xDC00)) :: acc)
              else unquoteAux fuel rest1 (Char.ofNat 0xFFFD :: acc)
            | none => unquoteAux fuel rest1 (Char.ofNat 0xFFFD :: acc)
          | _ => unquoteAux fuel rest1 (Char.ofNat 0xFFFD :: acc)
        else unquoteAux fuel rest1 (Char.ofNat rr :: acc)
    | e :: rest1 =>
      if e = 0x22 ∨ e = 0x5C ∨ e = 0x2F then unquoteAux fuel rest1 (Char.ofNat e :: acc)
      else if e = 0x62 then unquoteAux fuel rest1 (Char.ofNat 0x08 :: acc)
      else if e = 0x66 then unquoteAux fuel rest1 (Char.ofNat 0x0C :: acc)
      else if e = 0x6E then unquoteAux fuel rest1 (Char.ofNat 0x0A :: acc)
      else if e = 0x72 then unquoteAux fuel rest1 (Char.ofNat 0x0D :: acc)
      else if e = 0x74 then unquoteAux fuel rest1 (Char.ofNat 0x09 :: acc)
      else none
    | [] => none
  | fuel + 1, c :: rest, acc =>
    if c = 0x22 ∨ c < 0x20 then none
    else if c < 0x80 then unquoteAux fuel rest (Char.ofNat c :: acc)
    else
      let r := decodeRune (c :: rest)
      unquoteAux fuel ((c :: rest).drop r.2) (Char.ofNat r.1 :: acc)

/-- The decoded text of a string literal, from the bytes between its quotes;
every step takes at least one byte, so the fuel is never exhausted. -/
def unquote (raw : List Nat) : Option String := unquoteAux (raw.length + 1) raw []

/-- An ASCII decimal digit. -/
def isDigitByte (c : Nat) : Bool := 0x30 ≤ c && c ≤ 0x39

/-- A string of one or more digits. -/
def isDigits (ds : List Nat) : Bool := !ds.isEmpty && ds.all isDigitByte

/-- The exponent part of a number, after the `e`: an optional sign and digits. -/
def validExponent : List Nat → Bool
  | s :: ds => if s = 0x2B ∨ s = 0x2D then isDigits ds else isDigits (s :: ds)
  | [] => false

/-- The part of a number after the integer digits: nothing, a fraction, an
exponent, or a fraction and an exponent. -/
def validFractionExponent (rest : List Nat) : Bool :=
  match rest with
  | [] => true
  | c :: rest1 =>
    if c = 0x2E then
      let frac := rest1.span isDigitByte
      !frac.1.isEmpty &&
        (match frac.2 with
          | [] => true
          | e :: ex => (e == 0x65 || e == 0x45) && validExponent ex)
    else (c == 0x65 || c == 0x45) && validExponent rest1

/-- The literal follows the number grammar of JSON, without its sign. -/
def validUnsignedNumber : List Nat → Bool
  | [] => false
  | d :: rest =>
    if d = 0x30 then validFractionExponent rest
    else isDigitByte d && validFractionExponent (rest.span isDigitByte).2

/-- The literal follows the number grammar of JSON. -/
def validNumber : List Nat → Bool
  | 0x2D :: rest => validUnsignedNumber rest
  | lit => validUnsignedNumber lit

/-- What the tokenizer is in the middle of. -/
inductive ScanMode where
  | idle : ScanMode
  | inString (acc : List Nat) (escaped : Bool) : ScanMode
  | inNumber (acc : List Nat) : ScanMode
  | inWord (acc : List Nat) : ScanMode
deriving DecidableEq, Repr

/-- A byte read between tokens: the tokens (latest first) and the mode afterwards. -/
def scanIdle (toks : List Token) (c : Nat) : Option (List Token × ScanMode) :=
  if c = 0x20 ∨ c = 0x09 ∨ c = 0x0A ∨ c = 0x0D then some (toks, ScanMode.idle)
  else if c = 0x7B then some (Token.lbrace :: toks, ScanMode.idle)
  else if c = 0x7D then some (Token.rbrace :: toks, ScanMode.idle)
  else if c = 0x5B then some (Token.lbrack :: toks, ScanMode.idle)
  else if c = 0x5D then some (Token.rbrack :: toks, ScanMode.idle)
  else if c = 0x3A then some (Token.colon :: toks, ScanMode.idle)
  else if c = 0x2C then some (Token.comma :: toks, ScanMode.idle)
  else if c = 0x22 then some (toks, ScanMode.inString [] false)
  else if c = 0x2D ∨ isDigitByte c then some (toks, ScanMode.inNumber [c])
  else if 0x61 ≤ c ∧ c ≤ 0x7A then some (toks, ScanMode.inWord [c])
  else none

/-- One byte of input for the tokenizer. -/
def scanByte (st : List Token × ScanMode) (c : Nat) : Option (List Token × ScanMode) :=
  match st with
  | (toks, ScanMode.idle) => scanIdle toks c
  | (toks, ScanMode.inString acc true) => some (toks, ScanMode.inString (c :: acc) false)
  | (toks, ScanMode.inString acc false) =>
    if c = 0x22 then some (Token.str acc.reverse :: toks, ScanMode.idle)
    else some (toks, ScanMode.inString (c :: acc) (c == 0x5C))
  | (toks, ScanMode.inNumber acc) =>
    if isDigitByte c ∨ c = 0x2B ∨ c = 0x2D ∨ c = 0x2E ∨ c = 0x65 ∨ c = 0x45 then
      some (toks, ScanMode.inNumber (c :: acc))
    else scanIdle (Token.num acc.reverse :: toks) c
  | (toks, ScanMode.inWord acc) =>
    if 0x61 ≤ c ∧ c ≤ 0x7A then some (toks, ScanMode.inWord (c :: acc))
    else scanIdle (Token.word acc.reverse :: toks) c

/-- The tokens of an input, in order; `none` for a byte that starts no token or
a string that is not closed. -/
def tokenize (input : List Nat) : Option (List Token) :=
  match input.foldlM scanByte ([], ScanMode.idle) with
  | some (toks, ScanMode.idle) => some toks.reverse
  | some (toks, ScanMode.inNumber acc) => some (Token.num acc.reverse :: toks).reverse
  | some (toks, ScanMode.inWord acc) => some (Token.word acc.reverse :: toks).reverse
  | _ => none

/-- An array or object under construction: the items so far (latest first),
and for an object the key whose value is awaited. -/
inductive Frame where
  | arr (items : List JValue) : Frame
  | obj (members : List (String × JValue)) (key : String) : Frame

/-- What the grammar allows next. -/
inductive Expect where
  | value : Expect
  | valueOrClose : Expect
  | keyOrClose : Expect
  | key : Expect
  | colon : Expect
  | commaOrClose : Expect
  | done (v : JValue) : Expect

/-- The greatest nesting depth the decoder accepts. -/
def maxNestingDepth : Nat := 10000

/-- A value is complete: it is the result, or goes into the enclosing array or object. -/
def completeValue (stack : List Frame) (v : JValue) : List Frame × Expect :=
  match stack with
  | [] => ([], Expect.done v)
  | Frame.arr items :: st => (Frame.arr (v :: items) :: st, Expect.commaOrClose)
  | Frame.obj members k :: st => (Frame.obj ((k, v) :: members) k :: st, Expect.commaOrClose)

/-- A token where a value may start. -/
def parseValueToken (stack : List Frame) (t : Token) : Option (List Frame × Expect) :=
  match t with
  | Token.str raw => (unquote raw).map (fun s => completeValue stack (JValue.string s))
  | Token.num lit => if validNumber lit then some (completeValue stack (JValue.number lit)) else none
  | Token.word w =>
    if w = [0x74, 0x72, 0x75, 0x65] then some (completeValue stack (JValue.bool true))
    else if w = [0x66, 0x61, 0x6C, 0x73, 0x65] then some (completeValue stack (JValue.bool false))
    else if w = [0x6E, 0x75, 0x6C, 0x6C] then some (completeValue stack JValue.null)
    else none
  | Token.lbrack =>
    if stack.length < maxNestingDepth then some (Frame.arr [] :: stack, Expect.valueOrClose)
    else none
  | Token.lbrace =>
    if stack.length < maxNestingDepth then some (Frame.obj [] "" :: stack, Expect.keyOrClose)
    else none
  | _ => none

/-- A token where a key must come. -/
def parseKeyToken (stack : List Frame) (t : Token) : Option (List Frame × Expect) :=
  match t, stack with
  | Token.str raw, Frame.obj members _ :: st =>
    (unquote raw).map (fun k => (Frame.obj members k :: st, Expect.colon))
  | _, _ => none

/-- The closing bracket or brace of the innermost array or object. -/
def parseCloseToken (stack : List Frame) (t : Token) : Option (List Frame × Expect) :=
  match t, stack with
  | Token.rbrack, Frame.arr items :: st => some (completeValue st (JValue.array items.reverse))
  | Token.rbrace, Frame.obj members _ :: st =>
    some (completeValue st (JValue.object members.reverse))
  | _, _ => none

/-- One token of input for the parser. -/
def parseToken (st : List Frame × Expect) (t : Token) : Option (List Frame × Expect) :=
  match st.2 with
  | Expect.value => parseValueToken st.1 t
  | Expect.valueOrClose =>
    if t = Token.rbrack then parseCloseToken st.1 t else parseValueToken st.1 t
  | Expect.keyOrClose =>
    if t = Token.rbrace then parseCloseToken st.1 t else parseKeyToken st.1 t
  | Expect.key => parseKeyToken st.1 t
  | Expect.colon => if t = Token.colon then some (st.1, Expect.value) else none
  | Expect.commaOrClose =>
    if t = Token.comma then
      match st.1 with
      | Frame.arr _ :: _ => some (st.1, Expect.value)
      | Frame.obj _ _ :: _ => some (st.1, Expect.key)
      | [] => none
    else parseCloseToken st.1 t
  | Expect.done _ => none

/-- The JSON value an input is the text of; `none` when the input is not
exactly one valid JSON value (the check of `checkValid`). -/
def parseJSON (input : List UInt8) : Option JValue :=
  match tokenize (input.map UInt8.toNat) with
  | none => none
  | some toks =>
    match toks.foldlM parseToken ([], Expect.value) with
    | some (_, Expect.done v) => some v
    | _ => none

/-! ## Decoding into `Url` -/

/-- The struct `UrlInfo`. -/
structure UrlInfo where
  CfgDownUrl : String
  CfgDownName : String
deriving DecidableEq, Repr

/-- The struct `Url`; `Errno` is a `uint32`. -/
structure Url where
  Errno : Nat
  Errstr : String
  Info : UrlInfo
deriving DecidableEq, Repr

/-- The zero value of `Url`, the value of `var urlData Url`. -/
def Url.zero : Url := { Errno := 0, Errstr := "", Info := { CfgDownUrl := "", CfgDownName := "" } }

/-- The rune a rune is folded to when a key is compared with a field name:
ASCII letters by case, and the two other runes that fold to an ASCII letter,
`U+017F` (long s) and `U+212A` (Kelvin sign). -/
def foldRune (c : Char) : Char :=
  if 'a' ≤ c ∧ c ≤ 'z' then Char.ofNat (c.toNat - 32)
  else if c = Char.ofNat 0x17F then 'S'
  else if c = Char.ofNat 0x212A then 'K'
  else c

/-- The key of an object member selects the field with the JSON name `name`:
the two are equal up to case folding (this is how `encoding/json` matches a key
when no field has exactly that name; the field names of `Url` and `UrlInfo` are
ASCII and differ pairwise up to case). -/
def equalFold (key name : String) : Bool :=
  key.toList.map foldRune == name.toList.map foldRune

/-- The field `Value` of an `UnmarshalTypeError` for a JSON value. -/
def jsonKind : JValue → String
  | JValue.null => "null"
  | JValue.bool _ => "bool"
  | JValue.number lit => "number " ++ String.mk (lit.map Char.ofNat)
  | JValue.string _ => "string"
  | JValue.array _ => "array"
  | JValue.object _ => "object"

/-- An `UnmarshalTypeError`: the JSON value does not fit the Go type of the
field.  (The text of `encoding/json` errors is rendered approximately; only the
fact that an error is returned matters to this program.) -/
def unmarshalTypeError (v : JValue) (field goType : String) : GoError :=
  { msg := "json: cannot unmarshal " ++ jsonKind v ++ " into Go struct field " ++ field ++
      " of type " ++ goType }

/-- A `SyntaxError`: the input is not one valid JSON value. -/
def syntaxError : GoError := { msg := "json: invalid JSON input" }

/-- The decoder keeps the first error it meets and goes on. -/
def saveError (saved new : Option GoError) : Option GoError :=
  match saved with
  | some e => some e
  | none => new

/-- A JSON value stored into a `string` field: a string is stored, `null`
leaves the field as it is, any other value is a type error. -/
def decodeString (field : String) (old : String) (v : JValue) : String × Option GoError :=
  match v with
  | JValue.string s => (s, none)
  | JValue.null => (old, none)
  | _ => (old, some (unmarshalTypeError v field "string"))

/-- The value of a string of decimal digits. -/
def digitsValue (ds : List Nat) : Nat := ds.foldl (fun acc d => acc * 10 + (d - 0x30)) 0

/-- A JSON value stored into a `uint32` field: a number written with digits
only and below `2^32` is stored, `null` leaves the field as it is, any other
value is a type error. -/
def decodeUint32 (field : String) (old : Nat) (v : JValue) : Nat × Option GoError :=
  match v with
  | JValue.number lit =>
    if lit.all isDigitByte ∧ digitsValue lit < 2 ^ 32 then (digitsValue lit, none)
    else (old, some (unmarshalTypeError v field "uint32"))
  | JValue.null => (old, none)
  | _ => (old, some (unmarshalTypeError v field "uint32"))

/-- One member of the object for `UrlInfo`. -/
def decodeUrlInfoMember (acc : UrlInfo × Option GoError) (m : String × JValue) :
    UrlInfo × Option GoError :=
  if equalFold m.1 "cfg_down_url" then
    let r := decodeString "Url.info.cfg_down_url" acc.1.CfgDownUrl m.2
    ({ acc.1 with CfgDownUrl := r.1 }, saveError acc.2 r.2)
  else if equalFold m.1 "cfg_down_name" then
    let r := decodeString "Url.info.cfg_down_name" acc.1.CfgDownName m.2
    ({ acc.1 with CfgDownName := r.1 }, saveError acc.2 r.2)
  else acc

/-- A JSON value stored into a `UrlInfo` field: the members of an object are
stored in order (unknown keys are skipped, a later member overrides an earlier
one), `null` leaves the field as it is, any other value is a type error. -/
def decodeUrlInfo (old : UrlInfo) (v : JValue) : UrlInfo × Option GoError :=
  match v with
  | JValue.object members => members.foldl decodeUrlInfoMember (old, none)
  | JValue.null => (old, none)
  | _ => (old, some (unmarshalTypeError v "Url.info" "main.UrlInfo"))

/-- One member of the object for `Url`. -/
def decodeUrlMember (acc : Url × Option GoError) (m : String × JValue) : Url × Option GoError :=
  if equalFold m.1 "errno" then
    let r := decodeUint32 "Url.errno" acc.1.Errno m.2
    ({ acc.1 with Errno := r.1 }, saveError acc.2 r.2)
  else if equalFold m.1 "errstr" then
    let r := decodeString "Url.errstr" acc.1.Errstr m.2
    ({ acc.1 with Errstr := r.1 }, saveError acc.2 r.2)
  else if equalFold m.1 "info" then
    let r := decodeUrlInfo acc.1.Info m.2
    ({ acc.1 with Info := r.1 }, saveError acc.2 r.2)
  else acc

/-- A JSON value stored into a `Url`. -/
def decodeUrl (old : Url) (v : JValue) : Url × Option GoError :=
  match v with
  | JValue.object members => members.foldl decodeUrlMember (old, none)
  | JValue.null => (old, none)
  | _ => (old, some { msg := "json: cannot unmarshal " ++ jsonKind v ++
      " into Go value of type main.Url" })

/-- The call `json.Unmarshal(data, &v)` for a `v` of type `Url`: the value of
`v` afterwards and the error.  Invalid input is rejected before anything is
stored. -/
def jsonUnmarshal (data : List UInt8) (v : Url) : Url × Option GoError :=
  match parseJSON data with
  | none => (v, some syntaxError)
  | some j => decodeUrl v j

/-! ## Resolution of the download target -/

/-- The constant `downLoadUrl`. -/
def downLoadUrl : String := "http://自定义地址?name=%s&time=%d&sign=%s"

/-- The constant `CDNKey`. -/
def CDNKey : String := "自定义"

/-- The constant `pkgName`. -/
def pkgName : String := "自定义"

/-- The signature of a request: the local `sign` of `loadUrlFromCDN`. -/
def requestSign (name : String) (time : Int) (key : String) : String :=
  getMD5Hash (Sprintf "%s%d%s" [Arg.str name, Arg.int time, Arg.str key])

/-- The URL of a request: the local `url` of `loadUrlFromCDN`. -/
def requestUrl (name : String) (time : Int) (key : String) : String :=
  let sign := requestSign name time key
  Sprintf downLoadUrl [Arg.str name, Arg.int time, Arg.str sign]

/-- The call `io.ReadAll(resp.Body)`: the bytes read and the error, `nil` when
the body ends with `io.EOF`. -/
def ioReadAll (resp : Response) : List UInt8 × Option GoError :=
  (resp.Body.flatten, resp.BodyErr)

/-- The call `fmt.Println(string(data))`. -/
def World.println (w : World) (data : List UInt8) : World :=
  { w with stdout := w.stdout ++ [data ++ [10]] }

/-- What `loadUrlFromCDN` returns, and the world afterwards. -/
structure LoadResult where
  url : String
  name : String
  err : Option GoError
  world : World
deriving DecidableEq, Repr

/-- The function `loadUrlFromCDN`.  The deferred `Close` of the body runs when
the function returns. -/
def loadUrlFromCDN (env : Env) (w : World) : LoadResult :=
  let name := pkgName
  let time := env.unixTime
  let key := CDNKey
  let url := requestUrl name time key
  match env.httpGet url with
  | Except.error err => { url := "", name := "", err := some err, world := w }
  | Except.ok resp =>
    let w1 := w.record (Event.acquire Handle.body)
    -- defer resp.Body.Close()
    match ioReadAll resp with
    | (_, some err) =>
      { url := "", name := "", err := some err, world := w1.record (Event.release Handle.body) }
    | (bytes, none) =>
      let w2 := w1.println bytes
      match jsonUnmarshal bytes Url.zero with
      | (_, some err) =>
        { url := "", name := "", err := some err,
          world := w2.record (Event.release Handle.body) }
      | (urlData, none) =>
        { url := urlData.Info.CfgDownUrl, name := urlData.Info.CfgDownName, err := none,
          world := w2.record (Event.release Handle.body) }

/-! ## Responses of the schema -/

/-- A character that stands for itself in a JSON string: printable ASCII other
than the quote and the backslash. -/
def plainChar (c : Char) : Bool :=
  decide (0x20 ≤ c.toNat) && decide (c.toNat < 0x80) && c != '"' && c != '\\'

/-- A string of characters that stand for themselves in a JSON string. -/
def isPlain (s : String) : Bool := s.toList.all plainChar

/-- The code points of a string, as bytes. -/
def codes (s : String) : List Nat := s.toList.map Char.toNat

/-- The text of a response of the schema, with a one-digit `errno`. -/
def schemaBody (errno : Nat) (errstr url name : String) : String :=
  "\x7b\"errno\":" ++ String.singleton (Char.ofNat (48 + errno)) ++ ",\"errstr\":\"" ++ errstr ++
    "\",\"info\":\x7b\"cfg_down_url\":\"" ++ url ++ "\",\"cfg_down_name\":\"" ++ name ++
    "\"\x7d\x7d"

/-! ## Example inputs -/

/-- A world with one file, `out.bin`, of two bytes. -/
def exampleWorld : World := { files := [("out.bin", [7, 7])], log := [], stdout := [] }

/-- An environment in which every call succeeds: the GET returns a body of
`n` bytes, announced by `Content-Length`, in one chunk. -/
def exampleEnv (n : Nat) : Env :=
  { httpGet := fun _ =>
      Except.ok { ContentLength := n, Body := [List.replicate n 0], BodyErr := none }
    createErr := fun _ => none
    fileWrite := fun _ => none
    now := 0
    since := fun i => 1000000 * (i + 1)
    unixTime := 1700000000 }

/-- An environment in which every GET fails. -/
def exampleEnvGetFails : Env :=
  { exampleEnv 3 with httpGet := fun _ => Except.error { msg := "connection refused" } }

/-- The response the specification gives as the successful resolution. -/
def exampleBody : String :=
  "\x7b\"errno\":0,\"errstr\":\"\",\"info\":\x7b\"cfg_down_url\":\"http://x/file.bin\"," ++
    "\"cfg_down_name\":\"file.bin\"\x7d\x7d"

/-- The response the specification gives as the failed resolution. -/
def exampleBodyErrno : String :=
  "\x7b\"errno\":1,\"errstr\":\"not found\",\"info\":\x7b\"cfg_down_url\":\"http://x/file.bin\"," ++
    "\"cfg_down_name\":\"file.bin\"\x7d\x7d"

/-- A response with another non-zero `errno`. -/
def exampleBodyErrno404 : String :=
  "\x7b\"errno\":404,\"errstr\":\"gone\",\"info\":\x7b\"cfg_down_url\":\"http://y/setup.exe\"," ++
    "\"cfg_down_name\":\"setup.exe\"\x7d\x7d"

/-- An environment in which the GET succeeds and the body is the given text,
served in one chunk. -/
def exampleEnvBody (body : String) : Env :=
  { exampleEnv 0 with
    httpGet := fun _ =>
      Except.ok { ContentLength := -1, Body := [stringBytes body], BodyErr := none } }

/-- An environment in which the GET succeeds and reading the body fails after
the first bytes. -/
def exampleEnvReadFails : Env :=
  { exampleEnv 0 with
    httpGet := fun _ =>
      Except.ok { ContentLength := -1, Body := [stringBytes "\x7b\"errno\":0,"],
                  BodyErr := some { msg := "unexpected EOF" } } }

/-- A fresh progress writer for a download of `total` bytes (`-1`: unknown). -/
def exampleWriter (total : Int) : progressWriter :=
  { totalSize := total, downloadedSize := 0, startTime := 0,
    progress := NewProgressBar, speed := { Text := "" },
    remaining := { Text := "" } }

/-- An environment in which every call succeeds and the response has no
`Content-Length`: the body is one byte. -/
def exampleEnvUnknownLength : Env :=
  { exampleEnv 1 with
    httpGet := fun _ => Except.ok { ContentLength := -1, Body := [[0]], BodyErr := none } }

/-- Ten `Write` calls of 1000 bytes each, one millisecond apart. -/
def tenChunks : List (List UInt8 × Int) :=
  List.replicate 10 (List.replicate 1000 0, 1000000)

/-! ## Properties of the progress writer -/

theorem wrapInt64_eq_self {x : Int} (h : isInt64 x) : wrapInt64 x = x := by
  unfold isInt64 at h
  unfold wrapInt64
  omega

theorem totalLength_nonneg (calls : List (List UInt8 × Int)) : 0 ≤ totalLength calls := by
  induction calls with
  | nil => simp [totalLength]
  | cons c rest ih =>
    simp only [totalLength, List.map_cons, List.sum_cons] at ih ⊢
    omega

theorem totalLength_append (a b : List (List UInt8 × Int)) :
    totalLength (a ++ b) = totalLength a + totalLength b := by
  simp [totalLength]

@[simp] theorem Write_downloadedSize (pw : progressWriter) (p : List UInt8) (t : Int) :
    (pw.Write p t).1.downloadedSize = wrapInt64 (pw.downloadedSize + (p.length : Int)) := rfl

theorem writeAll_append (pw : progressWriter) (a b : List (List UInt8 × Int)) :
    pw.writeAll (a ++ b) = (pw.writeAll a).writeAll b := by
  induction a generalizing pw with
  | nil => rfl
  | cons c rest ih =>
    obtain ⟨p, t⟩ := c
    simp only [List.cons_append, progressWriter.writeAll]
    exact ih _

theorem writeAll_downloadedSize_eq (calls : List (List UInt8 × Int)) (pw : progressWriter)
    (h0 : 0 ≤ pw.downloadedSize) (hfit : pw.downloadedSize + totalLength calls < 2 ^ 63) :
    (pw.writeAll calls).downloadedSize = pw.downloadedSize + totalLength calls := by
  induction calls generalizing pw with
  | nil => simp [progressWriter.writeAll, totalLength]
  | cons c rest ih =>
    obtain ⟨p, t⟩ := c
    have hr := totalLength_nonneg rest
    have hc : totalLength ((p, t) :: rest) = (p.length : Int) + totalLength rest := by
      simp [totalLength]
    rw [hc] at hfit ⊢
    have hw : (pw.Write p t).1.downloadedSize = pw.downloadedSize + (p.length : Int) := by
      rw [Write_downloadedSize]
      apply wrapInt64_eq_self
      unfold isInt64
      omega
    simp only [progressWriter.writeAll]
    rw [ih _ (by rw [hw]; omega) (by rw [hw]; omega), hw]
    omega

theorem totalLength_const (calls : List (List UInt8 × Int)) (k : Nat)
    (h : ∀ c ∈ calls, c.1.length = k) : totalLength calls = (k : Int) * calls.length := by
  induction calls with
  | nil => simp [totalLength]
  | cons c rest ih =>
    have hc : totalLength (c :: rest) = (c.1.length : Int) + totalLength rest := by
      simp [totalLength]
    rw [hc, ih (fun x hx => h x (List.mem_cons_of_mem _ hx)), h c (List.mem_cons_self _ _)]
    simp only [List.length_cons]
    push_cast
    ring

/-- C2: starting from `downloadedSize = 0`, after every `Write` call of a run
whose total length fits in `int64` the counter equals the sum of the lengths of
all chunks written so far and is not smaller than before the call; ten chunks
of 1000 bytes leave `downloadedSize = 10000`. -/
theorem Write_downloadedSize_running_sum (pw : progressWriter)
    (calls : List (List UInt8 × Int)) (h0 : pw.downloadedSize = 0)
    (hfit : totalLength calls < 2 ^ 63) :
    (∀ pre c suf, calls = pre ++ c :: suf →
      ((pw.writeAll pre).Write c.1 c.2).1.downloadedSize = totalLength (pre ++ [c]) ∧
      (pw.writeAll pre).downloadedSize ≤ ((pw.writeAll pre).Write c.1 c.2).1.downloadedSize) ∧
    (calls.length = 10 → (∀ c ∈ calls, c.1.length = 1000) →
      (pw.writeAll calls).downloadedSize = 10000) := by
  refine ⟨?_, ?_⟩
  · intro pre c suf hcalls
    have hsplit : totalLength calls = totalLength pre + (c.1.length : Int) + totalLength suf := by
      rw [hcalls, totalLength_append]
      simp [totalLength]
      ring
    have hpre := totalLength_nonneg pre
    have hsuf := totalLength_nonneg suf
    have hbefore : (pw.writeAll pre).downloadedSize = totalLength pre := by
      rw [writeAll_downloadedSize_eq pre pw (by omega) (by omega), h0]
      omega
    have hone : totalLength (pre ++ [c]) = totalLength pre + (c.1.length : Int) := by
      rw [totalLength_append]
      simp [totalLength]
    have hwrap : wrapInt64 (totalLength pre + (c.1.length : Int))
        = totalLength pre + (c.1.length : Int) := by
      apply wrapInt64_eq_self
      unfold isInt64
      omega
    rw [Write_downloadedSize, hbefore, hone, hwrap]
    exact ⟨rfl, by omega⟩
  · intro hlen hall
    have hsum := totalLength_const calls 1000 hall
    rw [writeAll_downloadedSize_eq calls pw (by omega) (by omega), h0, hsum, hlen]
    norm_num

/-- C2, at ten chunks of 1000 zero bytes written to a fresh writer for a
10000-byte download. -/
theorem Write_downloadedSize_running_sum_witness :
    (exampleWriter 10000).downloadedSize = 0 ∧
    totalLength tenChunks < 2 ^ 63 ∧
    tenChunks.length = 10 ∧
    ((exampleWriter 10000).writeAll tenChunks).downloadedSize = 10000 :=
  have hlen : ∀ c ∈ tenChunks, c.1.length = 1000 := fun c hc => by
    rw [List.eq_of_mem_replicate hc]; exact List.length_replicate _ _
  have hfit : totalLength tenChunks < 2 ^ 63 := by
    rw [totalLength_const _ 1000 hlen]
    unfold tenChunks
    rw [List.length_replicate]
    norm_num
  ⟨rfl, hfit, List.length_replicate _ _,
   (Write_downloadedSize_running_sum (exampleWriter 10000) tenChunks rfl hfit).2
     (List.length_replicate _ _) hlen⟩

/-! ## Properties of the download -/

@[simp] theorem record_log (w : World) (e : Event) : (w.record e).log = w.log ++ [e] := rfl

@[simp] theorem truncate_log (w : World) (path : String) : (w.truncate path).log = w.log := rfl

@[simp] theorem append_log (w : World) (path : String) (data : List UInt8) :
    (w.append path data).log = w.log := rfl

theorem ioCopy_log (env : Env) (path : String) (bodyErr : Option GoError)
    (chunks : List (List UInt8)) (i : Nat) (written : Int) (pw : progressWriter) (w : World) :
    (ioCopy env path bodyErr chunks i written pw w).world.log = w.log := by
  induction chunks generalizing i written pw w with
  | nil => rfl
  | cons chunk rest ih =>
    simp only [ioCopy, progressWriter.Write]
    split
    · exact ih _ _ _ _
    · cases hfw : env.fileWrite i with
      | none => simp only [ih, append_log]
      | some r => obtain ⟨k, e⟩ := r; simp only [append_log]

/-- The handle events of one `downloadFile` call, by the outcome of its steps. -/
theorem downloadFile_log (env : Env) (w : World) (filepath url : String)
    (progress : ProgressBar) (speed remaining : Label) :
    (downloadFile env w filepath url progress speed remaining).world.log = w.log ++
      (match env.httpGet url, env.createErr filepath with
        | Except.error _, _ => []
        | Except.ok _, some _ => [Event.acquire Handle.body, Event.release Handle.body]
        | Except.ok _, none =>
          [Event.acquire Handle.body, Event.acquire Handle.file,
           Event.release Handle.file, Event.release Handle.body]) := by
  unfold downloadFile
  cases hget : env.httpGet url with
  | error err => simp
  | ok resp =>
    cases hcreate : env.createErr filepath with
    | some err => simp
    | none =>
      simp only
      split <;> simp [ioCopy_log]

/-- C8: the handle events of a `downloadFile` call are such that the response
body is acquired exactly when the GET succeeds and the destination file exactly
when the GET and the creation succeed, each handle is released as many times as
it was acquired (once or never), and no release comes before its acquisition;
this holds for every outcome of the three steps. -/
theorem downloadFile_releases_each_acquired_handle_once (env : Env) (w : World)
    (filepath url : String) (progress : ProgressBar) (speed remaining : Label) :
    ∃ evs, (downloadFile env w filepath url progress speed remaining).world.log = w.log ++ evs ∧
      evs.count (Event.acquire Handle.body) = (if env.getOk url then 1 else 0) ∧
      evs.count (Event.acquire Handle.file) =
        (if env.getOk url && env.createOk filepath then 1 else 0) ∧
      (∀ h, evs.count (Event.release h) = evs.count (Event.acquire h)) ∧
      (∀ h, ∀ pre ∈ evs.inits, pre.count (Event.release h) ≤ pre.count (Event.acquire h)) := by
  refine ⟨_, downloadFile_log env w filepath url progress speed remaining, ?_⟩
  unfold Env.getOk Env.createOk
  cases hget : env.httpGet url with
  | error err => simp
  | ok resp =>
    cases hcreate : env.createErr filepath with
    | some err =>
      simp only [Option.isNone_some, Bool.and_false]
      exact ⟨by decide, by decide, fun h => by cases h <;> decide,
        fun h => by cases h <;> decide⟩
    | none =>
      simp only [Option.isNone_none, Bool.and_true]
      exact ⟨by decide, by decide, fun h => by cases h <;> decide,
        fun h => by cases h <;> decide⟩

theorem dataChunks_cons (chunk : List UInt8) (rest : List (List UInt8)) :
    dataChunks (chunk :: rest) =
      if chunk.length = 0 then dataChunks rest else chunk :: dataChunks rest := by
  unfold dataChunks
  by_cases h : chunk.length = 0 <;> simp [List.filter_cons, h]

/-- The copy returns no error exactly when the body ends with `io.EOF` and all
the file writes succeed. -/
theorem ioCopy_err_none_iff (env : Env) (path : String) (bodyErr : Option GoError)
    (chunks : List (List UInt8)) (i : Nat) (written : Int) (pw : progressWriter) (w : World) :
    (ioCopy env path bodyErr chunks i written pw w).err = none ↔
      bodyErr = none ∧ ∀ j, j < (dataChunks chunks).length → env.fileWrite (i + j) = none := by
  induction chunks generalizing i written pw w with
  | nil => simp [ioCopy, dataChunks]
  | cons chunk rest ih =>
    rw [dataChunks_cons]
    simp only [ioCopy, progressWriter.Write]
    by_cases hlen : chunk.length = 0
    · simp only [hlen, if_true]
      exact ih _ _ _ _
    · simp only [hlen, if_false]
      cases hfw : env.fileWrite i with
      | none =>
        simp only [ih, List.length_cons]
        constructor
        · rintro ⟨hb, hrest⟩
          refine ⟨hb, fun j hj => ?_⟩
          cases j with
          | zero => simpa using hfw
          | succ j =>
            have := hrest j (by omega)
            rw [show i + (j + 1) = i + 1 + j by omega]
            exact this
        · rintro ⟨hb, hall⟩
          refine ⟨hb, fun j hj => ?_⟩
          have := hall (j + 1) (by omega)
          rw [show i + (j + 1) = i + 1 + j by omega] at this
          exact this
      | some r =>
        obtain ⟨k, e⟩ := r
        simp only [List.length_cons]
        constructor
        · intro h
          exact absurd h (by simp)
        · rintro ⟨_, hall⟩
          have := hall 0 (by omega)
          rw [Nat.add_zero, hfw] at this
          exact absurd this (by simp)

/-- The error of a failed copy is the error of the first failing file write,
or else the error that ended the body. -/
theorem ioCopy_err_first (env : Env) (path : String) (bodyErr : Option GoError)
    (chunks : List (List UInt8)) (i : Nat) (written : Int) (pw : progressWriter) (w : World) :
    (∀ j k e, j < (dataChunks chunks).length → env.fileWrite (i + j) = some (k, e) →
      (∀ j1, j1 < j → env.fileWrite (i + j1) = none) →
      (ioCopy env path bodyErr chunks i written pw w).err = some e) ∧
    ((∀ j, j < (dataChunks chunks).length → env.fileWrite (i + j) = none) →
      (ioCopy env path bodyErr chunks i written pw w).err = bodyErr) := by
  induction chunks generalizing i written pw w with
  | nil => simp [ioCopy, dataChunks]
  | cons chunk rest ih =>
    rw [dataChunks_cons]
    simp only [ioCopy, progressWriter.Write]
    by_cases hlen : chunk.length = 0
    · simp only [hlen, if_true]
      exact ih _ _ _ _
    · simp only [hlen, if_false, List.length_cons]
      constructor
      · intro j k e hj hfail hbefore
        cases j with
        | zero =>
          rw [Nat.add_zero] at hfail
          simp only [hfail]
        | succ j =>
          have h0 := hbefore 0 (by omega)
          rw [Nat.add_zero] at h0
          simp only [h0]
          refine (ih (i + 1) _ _ _).1 j k e (by omega) ?_ ?_
          · rw [show i + 1 + j = i + (j + 1) by omega]; exact hfail
          · intro j1 hj1
            have := hbefore (j1 + 1) (by omega)
            rw [show i + 1 + j1 = i + (j1 + 1) by omega]; exact this
      · intro hall
        have h0 := hall 0 (by omega)
        rw [Nat.add_zero] at h0
        simp only [h0]
        refine (ih (i + 1) _ _ _).2 (fun j hj => ?_)
        have := hall (j + 1) (by omega)
        rw [show i + 1 + j = i + (j + 1) by omega]; exact this

/-- C9 as stated fails: two downloads in which all three steps succeed, one
writing 3 bytes and one writing 1 byte, return the same value (`nil`), so the
value returned carries no byte count. -/
theorem downloadFile_result_has_no_byte_count :
    (downloadFile (exampleEnv 3) exampleWorld "out.bin" "u" NewProgressBar ⟨""⟩ ⟨""⟩).err =
      (downloadFile (exampleEnv 1) exampleWorld "out.bin" "u" NewProgressBar ⟨""⟩ ⟨""⟩).err ∧
    ((downloadFile (exampleEnv 3) exampleWorld "out.bin" "u" NewProgressBar ⟨""⟩ ⟨""⟩).world.readFile
      "out.bin").map List.length = some 3 ∧
    ((downloadFile (exampleEnv 1) exampleWorld "out.bin" "u" NewProgressBar ⟨""⟩ ⟨""⟩).world.readFile
      "out.bin").map List.length = some 1 := by
  decide

/-- C9, amended: `downloadFile` returns only an `error`.  It is the error of
the GET when the GET fails; else the error of `os.Create` when the creation
fails; else the error of the copy, which is the error of the first failing
write to the file, or the error that ended the body when every write succeeds.
The result is `nil` if and only if the GET, the creation and the copy all
succeed. -/
theorem downloadFile_returns_first_error (env : Env) (w : World) (filepath url : String)
    (progress : ProgressBar) (speed remaining : Label) :
    (∀ e, env.httpGet url = Except.error e →
      (downloadFile env w filepath url progress speed remaining).err = some e) ∧
    (∀ resp e, env.httpGet url = Except.ok resp → env.createErr filepath = some e →
      (downloadFile env w filepath url progress speed remaining).err = some e) ∧
    (∀ resp, env.httpGet url = Except.ok resp → env.createErr filepath = none →
      (∀ j k e, j < (dataChunks resp.Body).length → env.fileWrite j = some (k, e) →
        (∀ j1, j1 < j → env.fileWrite j1 = none) →
        (downloadFile env w filepath url progress speed remaining).err = some e) ∧
      ((∀ j, j < (dataChunks resp.Body).length → env.fileWrite j = none) →
        (downloadFile env w filepath url progress speed remaining).err = resp.BodyErr)) ∧
    ((downloadFile env w filepath url progress speed remaining).err = none ↔
      ∃ resp, env.httpGet url = Except.ok resp ∧ env.createErr filepath = none ∧
        env.copyOk resp) := by
  have hcopy : ∀ resp, env.httpGet url = Except.ok resp → env.createErr filepath = none →
      (downloadFile env w filepath url progress speed remaining).err =
        (ioCopy env filepath resp.BodyErr resp.Body 0 0
          (newProgressWriter env resp progress speed remaining)
          (((w.record (Event.acquire Handle.body)).truncate filepath).record
            (Event.acquire Handle.file))).err := by
    intro resp hget hcreate
    simp only [downloadFile, hget, hcreate, newProgressWriter]
    split <;> simp_all
  refine ⟨?_, ?_, ?_, ?_⟩
  · intro e hget
    simp [downloadFile, hget]
  · intro resp e hget hcreate
    simp [downloadFile, hget, hcreate]
  · intro resp hget hcreate
    rw [hcopy resp hget hcreate]
    have h := ioCopy_err_first env filepath resp.BodyErr resp.Body 0 0
      (newProgressWriter env resp progress speed remaining)
      (((w.record (Event.acquire Handle.body)).truncate filepath).record
        (Event.acquire Handle.file))
    simp only [Nat.zero_add] at h
    exact h
  · cases hget : env.httpGet url with
    | error e => simp [downloadFile, hget]
    | ok resp =>
      cases hcreate : env.createErr filepath with
      | some e => simp [downloadFile, hget, hcreate]
      | none =>
        rw [hcopy resp hget hcreate, ioCopy_err_none_iff]
        simp only [Nat.zero_add, Except.ok.injEq, exists_eq_left', true_and, Env.copyOk]

/-- C9 amended, at a download of three bytes in which every step succeeds. -/
theorem downloadFile_returns_first_error_witness :
    (downloadFile (exampleEnv 3) exampleWorld "out.bin" "u" NewProgressBar ⟨""⟩ ⟨""⟩).err = none ∧
    (downloadFile exampleEnvGetFails exampleWorld "out.bin" "u" NewProgressBar ⟨""⟩ ⟨""⟩).err =
      some { msg := "connection refused" } :=
  ⟨(downloadFile_returns_first_error (exampleEnv 3) exampleWorld "out.bin" "u" NewProgressBar ⟨""⟩
      ⟨""⟩).2.2.2.2 ⟨_, rfl, rfl, rfl, fun _ _ => rfl⟩,
   (downloadFile_returns_first_error exampleEnvGetFails exampleWorld "out.bin" "u" NewProgressBar
      ⟨""⟩ ⟨""⟩).1 _ rfl⟩

/-- C10: when the GET fails, `downloadFile` returns the error of the GET and
leaves the world as it was: no file is created or truncated (the content at
every path is unchanged) and no handle is acquired. -/
theorem downloadFile_get_error_leaves_files (env : Env) (w : World) (filepath url : String)
    (progress : ProgressBar) (speed remaining : Label) (e : GoError)
    (hget : env.httpGet url = Except.error e) :
    (downloadFile env w filepath url progress speed remaining).err = some e ∧
    (downloadFile env w filepath url progress speed remaining).world = w ∧
    (∀ path, (downloadFile env w filepath url progress speed remaining).world.readFile path =
      w.readFile path) := by
  simp [downloadFile, hget]

/-- C10, at a refused connection with a two-byte file already at the destination. -/
theorem downloadFile_get_error_leaves_files_witness :
    exampleEnvGetFails.httpGet "u" = Except.error { msg := "connection refused" } ∧
    (downloadFile exampleEnvGetFails exampleWorld "out.bin" "u" NewProgressBar ⟨""⟩ ⟨""⟩).err =
      some { msg := "connection refused" } ∧
    (downloadFile exampleEnvGetFails exampleWorld "out.bin" "u" NewProgressBar ⟨""⟩
      ⟨""⟩).world.readFile "out.bin" = some [7, 7] :=
  ⟨rfl,
   (downloadFile_get_error_leaves_files exampleEnvGetFails exampleWorld "out.bin" "u"
      NewProgressBar ⟨""⟩ ⟨""⟩ { msg := "connection refused" } rfl).1,
   ((downloadFile_get_error_leaves_files exampleEnvGetFails exampleWorld "out.bin" "u"
      NewProgressBar ⟨""⟩ ⟨""⟩ { msg := "connection refused" } rfl).2.2 "out.bin").trans (by decide)⟩

/-- When no write to the file fails, the progress writer after the copy is the
writer after one `Write` call for each read that carries data. -/
theorem ioCopy_pw (env : Env) (path : String) (bodyErr : Option GoError)
    (chunks : List (List UInt8)) (i : Nat) (written : Int) (pw : progressWriter) (w : World)
    (hok : ∀ j, j < (dataChunks chunks).length → env.fileWrite (i + j) = none) :
    (ioCopy env path bodyErr chunks i written pw w).pw = pw.writeAll (copyCalls env i chunks) := by
  induction chunks generalizing i written pw w with
  | nil => rfl
  | cons chunk rest ih =>
    rw [dataChunks_cons] at hok
    simp only [ioCopy, copyCalls, progressWriter.Write]
    by_cases hlen : chunk.length = 0
    · simp only [hlen, if_true] at hok ⊢
      exact ih _ _ _ _ hok
    · simp only [hlen, if_false, List.length_cons] at hok ⊢
      have h0 := hok 0 (by omega)
      rw [Nat.add_zero] at h0
      simp only [h0, progressWriter.writeAll]
      refine ih (i + 1) _ _ _ (fun j hj => ?_)
      have := hok (j + 1) (by omega)
      rw [show i + 1 + j = i + (j + 1) by omega]; exact this

theorem totalLength_copyCalls (env : Env) (i : Nat) (chunks : List (List UInt8)) :
    totalLength (copyCalls env i chunks) = (chunks.flatten.length : Int) := by
  induction chunks generalizing i with
  | nil => rfl
  | cons chunk rest ih =>
    simp only [copyCalls]
    by_cases hlen : chunk.length = 0
    · simp only [hlen, if_true, List.flatten_cons, List.length_append, zero_add]
      exact ih i
    · simp only [hlen, if_false, List.flatten_cons, List.length_append]
      have hc : totalLength ((chunk, env.since i) :: copyCalls env (i + 1) rest) =
          (chunk.length : Int) + totalLength (copyCalls env (i + 1) rest) := by
        simp [totalLength]
      rw [hc, ih (i + 1)]
      push_cast
      rfl

/-- A download in which the GET and the creation succeed and no write to the
file fails leaves a progress writer whose `downloadedSize` is the number of
bytes of the body that were read (provided that number fits in `int64`). -/
theorem downloadFile_downloadedSize (env : Env) (w : World) (filepath url : String)
    (progress : ProgressBar) (speed remaining : Label) (resp : Response)
    (hget : env.httpGet url = Except.ok resp) (hcreate : env.createErr filepath = none)
    (hok : ∀ j, j < (dataChunks resp.Body).length → env.fileWrite j = none)
    (hfit : (resp.Body.flatten.length : Int) < 2 ^ 63) :
    (downloadFile env w filepath url progress speed remaining).pw.map
      (fun pw => pw.downloadedSize) = some (resp.Body.flatten.length : Int) := by
  have hpw : (downloadFile env w filepath url progress speed remaining).pw =
      some (ioCopy env filepath resp.BodyErr resp.Body 0 0
        (newProgressWriter env resp progress speed remaining)
        (((w.record (Event.acquire Handle.body)).truncate filepath).record
          (Event.acquire Handle.file))).pw := by
    simp only [downloadFile, hget, hcreate, newProgressWriter]
    split <;> rfl
  rw [hpw, ioCopy_pw _ _ _ _ _ _ _ _ (by simpa using hok)]
  simp only [Option.map_some']
  rw [writeAll_downloadedSize_eq _ _ (by simp [newProgressWriter])
    (by rw [totalLength_copyCalls]; simpa [newProgressWriter] using hfit),
    totalLength_copyCalls]
  simp [newProgressWriter]

/-! ## Properties of the JSON decoder -/

theorem decodeRune_size_pos (l : List Nat) : 1 ≤ (decodeRune l).2 := by
  unfold decodeRune
  split <;> (repeat' split) <;> simp

theorem unquoteAux_fuel (f1 : Nat) : ∀ (f2 : Nat) (raw : List Nat) (acc : List Char),
    raw.length < f1 → raw.length < f2 → unquoteAux f1 raw acc = unquoteAux f2 raw acc := by
  induction f1 with
  | zero => intro f2 raw acc h1; omega
  | succ f1 ih =>
    intro f2 raw acc h1 h2
    cases f2 with
    | zero => omega
    | succ f2 =>
      cases raw with
      | nil => simp only [unquoteAux]
      | cons c rest =>
        simp only [List.length_cons] at h1 h2
        by_cases hc : c = 0x5C
        · subst hc
          simp only [unquoteAux]
          split
          · rename_i a b c d rest1
            simp only [List.length_cons] at h1 h2
            split
            · rfl
            · split
              · split
                · rename_i a1 b1 c1 d1 rest2
                  simp only [List.length_cons] at h1 h2
                  split
                  · split
                    · exact ih _ _ _ (by omega) (by omega)
                    · exact ih _ _ _ (by simp only [List.length_cons]; omega)
                        (by simp only [List.length_cons]; omega)
                  · exact ih _ _ _ (by simp only [List.length_cons]; omega)
                      (by simp only [List.length_cons]; omega)
                · exact ih _ _ _ (by omega) (by omega)
              · exact ih _ _ _ (by omega) (by omega)
          · rename_i e rest1 hne
            simp only [List.length_cons] at h1 h2
            split_ifs <;> first | rfl | exact ih _ _ _ (by omega) (by omega)
          · rfl
        · rw [unquoteAux, unquoteAux]
          · split_ifs
            · rfl
            · exact ih _ _ _ (by omega) (by omega)
            · have hpos := decodeRune_size_pos (c :: rest)
              refine ih _ _ _ ?_ ?_
              · simp only [List.length_drop, List.length_cons]; omega
              · simp only [List.length_drop, List.length_cons]; omega
          · exact fun h => hc h
          · exact fun h => hc h

/-- The fuel of `unquote` is never exhausted: more fuel gives the same result. -/
theorem unquote_fuel (raw : List Nat) (fuel : Nat) (h : raw.length < fuel) :
    unquoteAux fuel raw [] = unquote raw :=
  unquoteAux_fuel fuel (raw.length + 1) raw [] h (Nat.lt_succ_self _)

theorem utf8EncodeChar_ascii (c : Char) (h : c.toNat < 0x80) :
    (String.utf8EncodeChar c).map UInt8.toNat = [c.toNat] := by
  unfold String.utf8EncodeChar
  have hv : c.val ≤ 0x7f := by
    show c.val.toNat ≤ 0x7f
    have : c.toNat = c.val.toNat := rfl
    omega
  simp only [hv, if_true, List.map_cons, List.map_nil]
  congr 1
  show (c.val.toUInt8).toNat = c.val.toNat
  have : c.toNat = c.val.toNat := rfl
  simp [UInt32.toUInt8, UInt8.toNat, Nat.toUInt8, UInt8.ofNat]
  omega

theorem plainChar_bounds (c : Char) (h : plainChar c = true) :
    0x20 ≤ c.toNat ∧ c.toNat < 0x80 ∧ c.toNat ≠ 0x22 ∧ c.toNat ≠ 0x5C := by
  unfold plainChar at h
  simp only [Bool.and_eq_true, decide_eq_true_eq, bne_iff_ne, ne_eq] at h
  obtain ⟨⟨⟨h1, h2⟩, h3⟩, h4⟩ := h
  refine ⟨h1, h2, ?_, ?_⟩
  · intro h5
    apply h3
    apply Char.ext
    apply UInt32.ext
    exact h5
  · intro h5
    apply h4
    apply Char.ext
    apply UInt32.ext
    exact h5

theorem stringBytes_plain_list (l : List Char) (h : l.all plainChar = true) :
    (l.flatMap String.utf8EncodeChar).map UInt8.toNat = l.map Char.toNat := by
  induction l with
  | nil => rfl
  | cons c rest ih =>
    simp only [List.all_cons, Bool.and_eq_true] at h
    simp only [List.flatMap_cons, List.map_append, List.map_cons]
    rw [utf8EncodeChar_ascii c (plainChar_bounds c h.1).2.1, ih h.2]
    rfl

theorem stringBytes_plain (s : String) (h : isPlain s = true) :
    (stringBytes s).map UInt8.toNat = codes s :=
  stringBytes_plain_list s.toList h

theorem stringBytes_append (a b : String) : stringBytes (a ++ b) = stringBytes a ++ stringBytes b := by
  unfold stringBytes
  rw [String.toList, String.data_append, List.flatMap_append]
  rfl

/-- Inside a string literal the tokenizer keeps plain bytes as they are. -/
theorem scan_plain (l : List Char) (h : l.all plainChar = true) (toks : List Token)
    (acc : List Nat) :
    (l.map Char.toNat).foldlM scanByte (toks, ScanMode.inString acc false) =
      some (toks, ScanMode.inString ((l.map Char.toNat).reverse ++ acc) false) := by
  induction l generalizing acc with
  | nil => rfl
  | cons c rest ih =>
    simp only [List.all_cons, Bool.and_eq_true] at h
    obtain ⟨_, _, h3, h4⟩ := plainChar_bounds c h.1
    simp only [List.map_cons, List.foldlM_cons, scanByte, h3, if_false]
    have hb : (c.toNat == 0x5C) = false := by simpa using h4
    simp only [hb]
    change List.foldlM scanByte (toks, ScanMode.inString (c.toNat :: acc) false)
      (rest.map Char.toNat) = _
    rw [ih h.2]
    simp

/-- The text of a string literal made of plain characters is those characters. -/
theorem unquoteAux_plain (l : List Char) (h : l.all plainChar = true) (fuel : Nat)
    (hfuel : l.length < fuel) (acc : List Char) :
    unquoteAux fuel (l.map Char.toNat) acc = some (String.mk (acc.reverse ++ l)) := by
  induction l generalizing fuel acc with
  | nil =>
    cases fuel with
    | zero => omega
    | succ fuel => simp [unquoteAux]
  | cons c rest ih =>
    simp only [List.all_cons, Bool.and_eq_true] at h
    obtain ⟨h1, h2, h3, h4⟩ := plainChar_bounds c h.1
    cases fuel with
    | zero => omega
    | succ fuel =>
      simp only [List.length_cons] at hfuel
      simp only [List.map_cons]
      rw [unquoteAux]
      · rw [if_neg (by omega), if_pos h2, ih h.2 fuel (by omega)]
        have hc : Char.ofNat c.toNat = c := by simp [Char.ofNat_toNat]
        simp [hc]
      · exact fun h => h4 h

theorem unquote_plain (s : String) (h : isPlain s = true) : unquote (codes s) = some s := by
  unfold unquote codes
  rw [unquoteAux_plain s.toList h _ (by simp)]
  simp

theorem toNat_map_append (a b : List UInt8) :
    (a ++ b).map UInt8.toNat = a.map UInt8.toNat ++ b.map UInt8.toNat := List.map_append _ _ _

theorem digit_bytes (e : Nat) (he : e < 10) :
    (stringBytes (String.singleton (Char.ofNat (48 + e)))).map UInt8.toNat = [48 + e] := by
  interval_cases e <;> decide

theorem schemaBody_bytes (e : Nat) (he : e < 10) (errstr url name : String)
    (h1 : isPlain errstr = true) (h2 : isPlain url = true) (h3 : isPlain name = true) :
    (stringBytes (schemaBody e errstr url name)).map UInt8.toNat =
      [123, 34, 101, 114, 114, 110, 111, 34, 58] ++ ([48 + e] ++
      ([44, 34, 101, 114, 114, 115, 116, 114, 34, 58, 34] ++ (codes errstr ++
      ([34, 44, 34, 105, 110, 102, 111, 34, 58, 123, 34, 99, 102, 103, 95, 100, 111, 119, 110,
        95, 117, 114, 108, 34, 58, 34] ++ (codes url ++
      ([34, 44, 34, 99, 102, 103, 95, 100, 111, 119, 110, 95, 110, 97, 109, 101, 34, 58, 34] ++
      (codes name ++ [34, 125, 125]))))))) := by
  unfold schemaBody
  simp only [stringBytes_append, toNat_map_append, stringBytes_plain _ h1,
    stringBytes_plain _ h2, stringBytes_plain _ h3, digit_bytes e he, List.append_assoc]
  rfl

theorem foldlM_append_some {α β : Type} (f : β → α → Option β) (b b1 : β) (l1 l2 : List α)
    (h : l1.foldlM f b = some b1) : (l1 ++ l2).foldlM f b = l2.foldlM f b1 := by
  rw [List.foldlM_append, h]
  rfl

theorem scan_errno_key :
    List.foldlM scanByte ([], ScanMode.idle) [123, 34, 101, 114, 114, 110, 111, 34, 58] =
      some ([Token.colon, Token.str [101, 114, 114, 110, 111], Token.lbrace], ScanMode.idle) :=
  rfl

theorem scan_digit (e : Nat) (he : e < 10) (toks : List Token) :
    List.foldlM scanByte (toks, ScanMode.idle) [48 + e] =
      some (toks, ScanMode.inNumber [48 + e]) := by
  interval_cases e <;> rfl

theorem scan_errstr_key (toks : List Token) (acc : List Nat) :
    List.foldlM scanByte (toks, ScanMode.inNumber acc)
        [44, 34, 101, 114, 114, 115, 116, 114, 34, 58, 34] =
      some (Token.colon :: Token.str [101, 114, 114, 115, 116, 114] :: Token.comma ::
        Token.num acc.reverse :: toks, ScanMode.inString [] false) :=
  rfl

theorem scan_info_key (toks : List Token) (acc : List Nat) :
    List.foldlM scanByte (toks, ScanMode.inString acc false)
        [34, 44, 34, 105, 110, 102, 111, 34, 58, 123, 34, 99, 102, 103, 95, 100, 111, 119, 110,
          95, 117, 114, 108, 34, 58, 34] =
      some (Token.colon :: Token.str [99, 102, 103, 95, 100, 111, 119, 110, 95, 117, 114, 108] ::
        Token.lbrace :: Token.colon :: Token.str [105, 110, 102, 111] :: Token.comma ::
        Token.str acc.reverse :: toks, ScanMode.inString [] false) :=
  rfl

theorem scan_name_key (toks : List Token) (acc : List Nat) :
    List.foldlM scanByte (toks, ScanMode.inString acc false)
        [34, 44, 34, 99, 102, 103, 95, 100, 111, 119, 110, 95, 110, 97, 109, 101, 34, 58, 34] =
      some (Token.colon ::
        Token.str [99, 102, 103, 95, 100, 111, 119, 110, 95, 110, 97, 109, 101] ::
        Token.comma :: Token.str acc.reverse :: toks, ScanMode.inString [] false) :=
  rfl

theorem scan_closing (toks : List Token) (acc : List Nat) :
    List.foldlM scanByte (toks, ScanMode.inString acc false) [34, 125, 125] =
      some (Token.rbrace :: Token.rbrace :: Token.str acc.reverse :: toks, ScanMode.idle) :=
  rfl

/-- The tokens of a response of the schema. -/
theorem tokenize_schemaBody (e : Nat) (he : e < 10) (errstr url name : String)
    (h1 : isPlain errstr = true) (h2 : isPlain url = true) (h3 : isPlain name = true) :
    tokenize ((stringBytes (schemaBody e errstr url name)).map UInt8.toNat) =
      some [Token.lbrace, Token.str [101, 114, 114, 110, 111], Token.colon, Token.num [48 + e],
        Token.comma, Token.str [101, 114, 114, 115, 116, 114], Token.colon,
        Token.str (codes errstr), Token.comma, Token.str [105, 110, 102, 111], Token.colon,
        Token.lbrace,
        Token.str [99, 102, 103, 95, 100, 111, 119, 110, 95, 117, 114, 108], Token.colon,
        Token.str (codes url), Token.comma,
        Token.str [99, 102, 103, 95, 100, 111, 119, 110, 95, 110, 97, 109, 101], Token.colon,
        Token.str (codes name), Token.rbrace, Token.rbrace] := by
  rw [schemaBody_bytes e he errstr url name h1 h2 h3]
  unfold tokenize codes
  rw [foldlM_append_some scanByte _ _ _ _ scan_errno_key,
    foldlM_append_some scanByte _ _ _ _ (scan_digit e he _),
    foldlM_append_some scanByte _ _ _ _ (scan_errstr_key _ _),
    foldlM_append_some scanByte _ _ _ _ (scan_plain errstr.toList h1 _ _),
    foldlM_append_some scanByte _ _ _ _ (scan_info_key _ _),
    foldlM_append_some scanByte _ _ _ _ (scan_plain url.toList h2 _ _),
    foldlM_append_some scanByte _ _ _ _ (scan_name_key _ _),
    foldlM_append_some scanByte _ _ _ _ (scan_plain name.toList h3 _ _),
    scan_closing]
  simp

theorem validNumber_digit (e : Nat) (he : e < 10) : validNumber [48 + e] = true := by
  interval_cases e <;> decide

theorem parse_errno_key :
    List.foldlM parseToken ([], Expect.value)
        [Token.lbrace, Token.str [101, 114, 114, 110, 111], Token.colon] =
      some ([Frame.obj [] "errno"], Expect.value) :=
  rfl

theorem parse_digit (e : Nat) (he : e < 10) (stack : List Frame) :
    List.foldlM parseToken (stack, Expect.value) [Token.num [48 + e]] =
      some (completeValue stack (JValue.number [48 + e])) := by
  simp only [List.foldlM_cons, List.foldlM_nil, parseToken, parseValueToken,
    validNumber_digit e he, if_true]
  rfl

theorem parse_plain (s : String) (h : isPlain s = true) (stack : List Frame) :
    List.foldlM parseToken (stack, Expect.value) [Token.str (codes s)] =
      some (completeValue stack (JValue.string s)) := by
  simp only [List.foldlM_cons, List.foldlM_nil, parseToken, parseValueToken,
    unquote_plain s h, Option.map_some']
  rfl

theorem parse_errstr_key (members : List (String × JValue)) (k : String) :
    List.foldlM parseToken ([Frame.obj members k], Expect.commaOrClose)
        [Token.comma, Token.str [101, 114, 114, 115, 116, 114], Token.colon] =
      some ([Frame.obj members "errstr"], Expect.value) :=
  rfl

theorem parse_info_key (members : List (String × JValue)) (k : String) :
    List.foldlM parseToken ([Frame.obj members k], Expect.commaOrClose)
        [Token.comma, Token.str [105, 110, 102, 111], Token.colon, Token.lbrace,
          Token.str [99, 102, 103, 95, 100, 111, 119, 110, 95, 117, 114, 108], Token.colon] =
      some ([Frame.obj [] "cfg_down_url", Frame.obj members "info"], Expect.value) :=
  rfl

theorem parse_name_key (members outer : List (String × JValue)) (k : String) :
    List.foldlM parseToken ([Frame.obj members k, Frame.obj outer "info"], Expect.commaOrClose)
        [Token.comma, Token.str [99, 102, 103, 95, 100, 111, 119, 110, 95, 110, 97, 109, 101],
          Token.colon] =
      some ([Frame.obj members "cfg_down_name", Frame.obj outer "info"], Expect.value) :=
  rfl

theorem parse_closing (members outer : List (String × JValue)) (k : String) :
    List.foldlM parseToken ([Frame.obj members k, Frame.obj outer "info"], Expect.commaOrClose)
        [Token.rbrace, Token.rbrace] =
      some ([], Expect.done
        (JValue.object (("info", JValue.object members.reverse) :: outer).reverse)) :=
  rfl

/-- The JSON value of a response of the schema. -/
theorem parseJSON_schemaBody (e : Nat) (he : e < 10) (errstr url name : String)
    (h1 : isPlain errstr = true) (h2 : isPlain url = true) (h3 : isPlain name = true) :
    parseJSON (stringBytes (schemaBody e errstr url name)) =
      some (JValue.object [("errno", JValue.number [48 + e]), ("errstr", JValue.string errstr),
        ("info", JValue.object [("cfg_down_url", JValue.string url),
          ("cfg_down_name", JValue.string name)])]) := by
  unfold parseJSON
  rw [tokenize_schemaBody e he errstr url name h1 h2 h3]
  have hfold : List.foldlM parseToken ([], Expect.value)
      ([Token.lbrace, Token.str [101, 114, 114, 110, 111], Token.colon] ++
        ([Token.num [48 + e]] ++
        ([Token.comma, Token.str [101, 114, 114, 115, 116, 114], Token.colon] ++
        ([Token.str (codes errstr)] ++
        ([Token.comma, Token.str [105, 110, 102, 111], Token.colon, Token.lbrace,
          Token.str [99, 102, 103, 95, 100, 111, 119, 110, 95, 117, 114, 108], Token.colon] ++
        ([Token.str (codes url)] ++
        ([Token.comma,
          Token.str [99, 102, 103, 95, 100, 111, 119, 110, 95, 110, 97, 109, 101],
          Token.colon] ++
        ([Token.str (codes name)] ++ [Token.rbrace, Token.rbrace])))))))) =
      some ([], Expect.done
        (JValue.object [("errno", JValue.number [48 + e]), ("errstr", JValue.string errstr),
          ("info", JValue.object [("cfg_down_url", JValue.string url),
            ("cfg_down_name", JValue.string name)])])) := by
    rw [foldlM_append_some parseToken _ _ _ _ parse_errno_key,
      foldlM_append_some parseToken _ _ _ _ (parse_digit e he _)]
    simp only [completeValue]
    rw [foldlM_append_some parseToken _ _ _ _ (parse_errstr_key _ _),
      foldlM_append_some parseToken _ _ _ _ (parse_plain errstr h1 _)]
    simp only [completeValue]
    rw [foldlM_append_some parseToken _ _ _ _ (parse_info_key _ _),
      foldlM_append_some parseToken _ _ _ _ (parse_plain url h2 _)]
    simp only [completeValue]
    rw [foldlM_append_some parseToken _ _ _ _ (parse_name_key _ _ _),
      foldlM_append_some parseToken _ _ _ _ (parse_plain name h3 _)]
    simp only [completeValue]
    rw [parse_closing]
    rfl
  simp only [List.cons_append, List.nil_append] at hfold
  simp only [hfold]

theorem equalFold_eval :
    equalFold "errno" "errno" = true ∧ equalFold "errstr" "errno" = false ∧
    equalFold "errstr" "errstr" = true ∧ equalFold "info" "errno" = false ∧
    equalFold "info" "errstr" = false ∧ equalFold "info" "info" = true ∧
    equalFold "cfg_down_url" "cfg_down_url" = true ∧
    equalFold "cfg_down_name" "cfg_down_url" = false ∧
    equalFold "cfg_down_name" "cfg_down_name" = true := by
  decide

/-- A response of the schema decodes to the values it carries: the `errno`
digit, and the three strings unmodified. -/
theorem jsonUnmarshal_schemaBody (e : Nat) (he : e < 10) (errstr url name : String)
    (h1 : isPlain errstr = true) (h2 : isPlain url = true) (h3 : isPlain name = true) :
    jsonUnmarshal (stringBytes (schemaBody e errstr url name)) Url.zero =
      ({ Errno := e, Errstr := errstr, Info := { CfgDownUrl := url, CfgDownName := name } },
        none) := by
  obtain ⟨k1, k2, k3, k4, k5, k6, k7, k8, k9⟩ := equalFold_eval
  have hdigits : ([48 + e].all isDigitByte = true ∧ digitsValue [48 + e] < 2 ^ 32) ∧
      digitsValue [48 + e] = e := by
    interval_cases e <;> decide
  unfold jsonUnmarshal
  rw [parseJSON_schemaBody e he errstr url name h1 h2 h3]
  simp only [decodeUrl, List.foldl_cons, List.foldl_nil, decodeUrlMember, decodeUrlInfo,
    decodeUrlInfoMember, decodeString, decodeUint32, saveError, Url.zero, k1, k2, k3, k4, k5,
    k6, k7, k8, k9, if_true, if_false, hdigits.1, hdigits.2, and_self, Bool.false_eq_true]
  have hlt : e < 2 ^ 32 := by omega
  rw [if_pos ⟨trivial, hlt⟩]

/-! ## Properties of the resolution -/

theorem sprintf_sign (name key : String) (t : Int) :
    Sprintf "%s%d%s" [Arg.str name, Arg.int t, Arg.str key] = name ++ formatInt t ++ key := by
  simp [Sprintf, sprintfAux, String.append_assoc]

theorem sprintf_url (name sign : String) (t : Int) :
    Sprintf downLoadUrl [Arg.str name, Arg.int t, Arg.str sign] =
      "http://自定义地址?name=" ++ name ++ "&time=" ++ formatInt t ++ "&sign=" ++ sign := by
  simp [Sprintf, sprintfAux, downLoadUrl]
  apply String.ext
  simp [String.data_append]

theorem md5Sum_length (data : List UInt8) : (md5Sum data).length = 16 := by
  simp [md5Sum, littleEndian]

theorem hexEncodeToString_length (data : List UInt8) :
    (hexEncodeToString data).length = 2 * data.length := by
  unfold hexEncodeToString
  rw [String.length_mk]
  induction data with
  | nil => rfl
  | cons b rest ih =>
    simp only [List.flatMap_cons, List.length_append, List.length_cons, List.length_nil, ih]
    omega

/-- C1: the signature of a request is the hexadecimal rendering, by
`getMD5Hash`, of the MD5 digest of `name ++ decimal(t) ++ key`, 32 digits long;
the URL of the request is the endpoint template with that name, that `t` and
that signature as the `name`, `time` and `sign` parameters; and it is the URL
`loadUrlFromCDN` sends its GET to, for `pkgName`, the current Unix time and
`CDNKey`. -/
theorem request_signs_name_time_key (name key : String) (t : Int) :
    requestSign name t key = getMD5Hash (name ++ formatInt t ++ key) ∧
    getMD5Hash (name ++ formatInt t ++ key) =
      hexEncodeToString (md5Sum (stringBytes (name ++ formatInt t ++ key))) ∧
    (requestSign name t key).length = 32 ∧
    requestUrl name t key =
      "http://自定义地址?name=" ++ name ++ "&time=" ++ formatInt t ++ "&sign=" ++
        requestSign name t key ∧
    (∀ (env : Env) (w : World) (e : GoError),
      env.httpGet ("http://自定义地址?name=" ++ pkgName ++ "&time=" ++ formatInt env.unixTime ++
        "&sign=" ++ getMD5Hash (pkgName ++ formatInt env.unixTime ++ CDNKey)) = Except.error e →
      (loadUrlFromCDN env w).err = some e) := by
  have hsign : ∀ n k (s : Int), requestSign n s k = getMD5Hash (n ++ formatInt s ++ k) := by
    intro n k s
    unfold requestSign
    rw [sprintf_sign]
  have hurl : ∀ n k (s : Int), requestUrl n s k =
      "http://自定义地址?name=" ++ n ++ "&time=" ++ formatInt s ++ "&sign=" ++
        requestSign n s k := by
    intro n k s
    unfold requestUrl
    exact sprintf_url _ _ _
  refine ⟨hsign _ _ _, rfl, ?_, hurl _ _ _, ?_⟩
  · rw [hsign]
    unfold getMD5Hash
    rw [hexEncodeToString_length, md5Sum_length]
  · intro env w e hget
    rw [← hsign, ← hurl] at hget
    simp [loadUrlFromCDN, hget]

set_option maxRecDepth 100000 in
/-- C1, at the constants of the program and the Unix time 1700000000. -/
theorem request_signs_name_time_key_witness :
    requestSign pkgName 1700000000 CDNKey = "a4cd63d3c049225a782644f595a5222a" ∧
    requestUrl pkgName 1700000000 CDNKey =
      "http://自定义地址?name=自定义&time=1700000000&sign=a4cd63d3c049225a782644f595a5222a" ∧
    (loadUrlFromCDN exampleEnvGetFails exampleWorld).err = some { msg := "connection refused" } :=
  ⟨(request_signs_name_time_key pkgName CDNKey 1700000000).1.trans (by decide),
   (request_signs_name_time_key pkgName CDNKey 1700000000).2.2.2.1.trans (by decide),
   (request_signs_name_time_key pkgName CDNKey 1700000000).2.2.2.2 exampleEnvGetFails
     exampleWorld { msg := "connection refused" } rfl⟩

/-- The three results of `loadUrlFromCDN` when the GET succeeds, the body is
read to its end and the decoding returns no error. -/
theorem loadUrlFromCDN_ok (env : Env) (w : World) (resp : Response) (urlData : Url)
    (hget : env.httpGet (requestUrl pkgName env.unixTime CDNKey) = Except.ok resp)
    (hread : resp.BodyErr = none)
    (hdecode : jsonUnmarshal resp.Body.flatten Url.zero = (urlData, none)) :
    (loadUrlFromCDN env w).url = urlData.Info.CfgDownUrl ∧
    (loadUrlFromCDN env w).name = urlData.Info.CfgDownName ∧
    (loadUrlFromCDN env w).err = none := by
  simp [loadUrlFromCDN, hget, ioReadAll, hread, hdecode]

/-- The results of `loadUrlFromCDN` for a response of the schema: the
`cfg_down_url` and the `cfg_down_name` written in the body, and a `nil` error,
whatever the `errno` digit. -/
theorem loadUrlFromCDN_schemaBody (env : Env) (w : World) (resp : Response)
    (hget : env.httpGet (requestUrl pkgName env.unixTime CDNKey) = Except.ok resp)
    (hread : resp.BodyErr = none) (errno : Nat) (errstr url name : String) (he : errno < 10)
    (h1 : isPlain errstr = true) (h2 : isPlain url = true) (h3 : isPlain name = true)
    (hbody : resp.Body.flatten = stringBytes (schemaBody errno errstr url name)) :
    (loadUrlFromCDN env w).url = url ∧ (loadUrlFromCDN env w).name = name ∧
    (loadUrlFromCDN env w).err = none :=
  loadUrlFromCDN_ok env w resp _ hget hread
    (by rw [hbody]; exact jsonUnmarshal_schemaBody errno he errstr url name h1 h2 h3)

/-- C4: when the body of the response decodes into a `Url` value, the results
of `loadUrlFromCDN` are the `cfg_down_url` and the `cfg_down_name` of that
value, in that order and unmodified, and a `nil` error.  In particular, for a
body of the schema
`{"errno":d,"errstr":"s","info":{"cfg_down_url":"u","cfg_down_name":"n"}}`
(a digit `d`; `s`, `u`, `n` of printable ASCII without quote and backslash) the
results are `(u, n, nil)`. -/
theorem loadUrlFromCDN_returns_decoded_target (env : Env) (w : World) (resp : Response)
    (hget : env.httpGet (requestUrl pkgName env.unixTime CDNKey) = Except.ok resp)
    (hread : resp.BodyErr = none) :
    (∀ urlData, jsonUnmarshal resp.Body.flatten Url.zero = (urlData, none) →
      ((loadUrlFromCDN env w).url, (loadUrlFromCDN env w).name, (loadUrlFromCDN env w).err) =
        (urlData.Info.CfgDownUrl, urlData.Info.CfgDownName, none)) ∧
    (∀ (errno : Nat) (errstr url name : String), errno < 10 → isPlain errstr = true →
      isPlain url = true → isPlain name = true →
      resp.Body.flatten = stringBytes (schemaBody errno errstr url name) →
      ((loadUrlFromCDN env w).url, (loadUrlFromCDN env w).name, (loadUrlFromCDN env w).err) =
        (url, name, none)) := by
  constructor
  · intro urlData hdecode
    obtain ⟨h1, h2, h3⟩ := loadUrlFromCDN_ok env w resp urlData hget hread hdecode
    rw [h1, h2, h3]
  · intro errno errstr url name he p1 p2 p3 hbody
    obtain ⟨h1, h2, h3⟩ :=
      loadUrlFromCDN_schemaBody env w resp hget hread errno errstr url name he p1 p2 p3 hbody
    rw [h1, h2, h3]

set_option maxRecDepth 100000 in
/-- C4, at the response of the specification: the results are
`("http://x/file.bin", "file.bin", nil)`. -/
theorem loadUrlFromCDN_returns_decoded_target_witness :
    jsonUnmarshal (stringBytes exampleBody) Url.zero =
      ({ Errno := 0, Errstr := "",
         Info := { CfgDownUrl := "http://x/file.bin", CfgDownName := "file.bin" } }, none) ∧
    exampleBody = schemaBody 0 "" "http://x/file.bin" "file.bin" ∧
    ((loadUrlFromCDN (exampleEnvBody exampleBody) exampleWorld).url,
     (loadUrlFromCDN (exampleEnvBody exampleBody) exampleWorld).name,
     (loadUrlFromCDN (exampleEnvBody exampleBody) exampleWorld).err) =
      ("http://x/file.bin", "file.bin", none) :=
  ⟨by decide, by decide,
   (loadUrlFromCDN_returns_decoded_target (exampleEnvBody exampleBody) exampleWorld
     { ContentLength := -1, Body := [stringBytes exampleBody], BodyErr := none }
     rfl rfl).1
     { Errno := 0, Errstr := "",
       Info := { CfgDownUrl := "http://x/file.bin", CfgDownName := "file.bin" } }
     (by decide)⟩

set_option maxRecDepth 100000 in
/-- C3 as stated fails: the response of the specification with `errno = 1`
decodes with `Errno = 1`, and `loadUrlFromCDN` returns a `nil` error together
with the `cfg_down_url` and `cfg_down_name` of the payload. -/
theorem loadUrlFromCDN_errno_one_is_not_an_error :
    (jsonUnmarshal (stringBytes exampleBodyErrno) Url.zero).1.Errno = 1 ∧
    (jsonUnmarshal (stringBytes exampleBodyErrno) Url.zero).2 = none ∧
    (loadUrlFromCDN (exampleEnvBody exampleBodyErrno) exampleWorld).err = none ∧
    (loadUrlFromCDN (exampleEnvBody exampleBodyErrno) exampleWorld).url = "http://x/file.bin" ∧
    (loadUrlFromCDN (exampleEnvBody exampleBodyErrno) exampleWorld).name = "file.bin" := by
  decide

/-- C3, amended: `loadUrlFromCDN` does not look at `errno`.  For every
response body that decodes with `errno != 0` it returns a `nil` error and the
`cfg_down_url` and `cfg_down_name` of the payload; in particular for every
body of the schema with an `errno` digit from 1 to 9, which decodes with that
`errno`. -/
theorem loadUrlFromCDN_ignores_errno (env : Env) (w : World) (resp : Response)
    (hget : env.httpGet (requestUrl pkgName env.unixTime CDNKey) = Except.ok resp)
    (hread : resp.BodyErr = none) :
    (∀ urlData, jsonUnmarshal resp.Body.flatten Url.zero = (urlData, none) →
      urlData.Errno ≠ 0 →
      (loadUrlFromCDN env w).err = none ∧
      (loadUrlFromCDN env w).url = urlData.Info.CfgDownUrl ∧
      (loadUrlFromCDN env w).name = urlData.Info.CfgDownName) ∧
    (∀ (errno : Nat) (errstr url name : String), 0 < errno → errno < 10 →
      isPlain errstr = true → isPlain url = true → isPlain name = true →
      resp.Body.flatten = stringBytes (schemaBody errno errstr url name) →
      (jsonUnmarshal resp.Body.flatten Url.zero).1.Errno = errno ∧
      (loadUrlFromCDN env w).err = none ∧
      (loadUrlFromCDN env w).url = url ∧ (loadUrlFromCDN env w).name = name) := by
  constructor
  · intro urlData hdecode _
    obtain ⟨h1, h2, h3⟩ := loadUrlFromCDN_ok env w resp urlData hget hread hdecode
    exact ⟨h3, h1, h2⟩
  · intro errno errstr url name _ he p1 p2 p3 hbody
    obtain ⟨h1, h2, h3⟩ :=
      loadUrlFromCDN_schemaBody env w resp hget hread errno errstr url name he p1 p2 p3 hbody
    refine ⟨?_, h3, h1, h2⟩
    rw [hbody, jsonUnmarshal_schemaBody errno he errstr url name p1 p2 p3]

set_option maxRecDepth 100000 in
/-- C3 amended, at a response with `errno = 404` and at a response of the
schema with `errno = 7`. -/
theorem loadUrlFromCDN_ignores_errno_witness :
    ((loadUrlFromCDN (exampleEnvBody exampleBodyErrno404) exampleWorld).err = none ∧
      (loadUrlFromCDN (exampleEnvBody exampleBodyErrno404) exampleWorld).url =
        "http://y/setup.exe" ∧
      (loadUrlFromCDN (exampleEnvBody exampleBodyErrno404) exampleWorld).name = "setup.exe") ∧
    ((jsonUnmarshal (stringBytes (schemaBody 7 "busy" "http://y/setup.exe" "setup.exe"))
        Url.zero).1.Errno = 7 ∧
      (loadUrlFromCDN (exampleEnvBody (schemaBody 7 "busy" "http://y/setup.exe" "setup.exe"))
        exampleWorld).err = none ∧
      (loadUrlFromCDN (exampleEnvBody (schemaBody 7 "busy" "http://y/setup.exe" "setup.exe"))
        exampleWorld).url = "http://y/setup.exe" ∧
      (loadUrlFromCDN (exampleEnvBody (schemaBody 7 "busy" "http://y/setup.exe" "setup.exe"))
        exampleWorld).name = "setup.exe") :=
  ⟨(loadUrlFromCDN_ignores_errno (exampleEnvBody exampleBodyErrno404) exampleWorld
      { ContentLength := -1, Body := [stringBytes exampleBodyErrno404], BodyErr := none }
      rfl rfl).1
      { Errno := 404, Errstr := "gone",
        Info := { CfgDownUrl := "http://y/setup.exe", CfgDownName := "setup.exe" } }
      (by decide) (by decide),
   (loadUrlFromCDN_ignores_errno
      (exampleEnvBody (schemaBody 7 "busy" "http://y/setup.exe" "setup.exe")) exampleWorld
      { ContentLength := -1,
        Body := [stringBytes (schemaBody 7 "busy" "http://y/setup.exe" "setup.exe")],
        BodyErr := none }
      rfl rfl).2 7 "busy" "http://y/setup.exe" "setup.exe" (by decide) (by decide) (by decide)
      (by decide) (by decide) (by simp)⟩

/-- C5: `loadUrlFromCDN` returns the two empty strings and a non-`nil` error,
the error of the step, when the GET fails, when the GET succeeds and reading
the body fails, and when both succeed and the decoding of the body fails (in
particular when the body is not valid JSON); whenever the error is not `nil`
the two strings are empty. -/
theorem loadUrlFromCDN_returns_first_error (env : Env) (w : World) :
    (∀ e, env.httpGet (requestUrl pkgName env.unixTime CDNKey) = Except.error e →
      ((loadUrlFromCDN env w).url, (loadUrlFromCDN env w).name, (loadUrlFromCDN env w).err) =
        ("", "", some e)) ∧
    (∀ resp e, env.httpGet (requestUrl pkgName env.unixTime CDNKey) = Except.ok resp →
      resp.BodyErr = some e →
      ((loadUrlFromCDN env w).url, (loadUrlFromCDN env w).name, (loadUrlFromCDN env w).err) =
        ("", "", some e)) ∧
    (∀ resp urlData e, env.httpGet (requestUrl pkgName env.unixTime CDNKey) = Except.ok resp →
      resp.BodyErr = none → jsonUnmarshal resp.Body.flatten Url.zero = (urlData, some e) →
      ((loadUrlFromCDN env w).url, (loadUrlFromCDN env w).name, (loadUrlFromCDN env w).err) =
        ("", "", some e)) ∧
    (∀ resp, env.httpGet (requestUrl pkgName env.unixTime CDNKey) = Except.ok resp →
      resp.BodyErr = none → parseJSON resp.Body.flatten = none →
      ((loadUrlFromCDN env w).url, (loadUrlFromCDN env w).name, (loadUrlFromCDN env w).err) =
        ("", "", some syntaxError)) ∧
    ((loadUrlFromCDN env w).err ≠ none →
      (loadUrlFromCDN env w).url = "" ∧ (loadUrlFromCDN env w).name = "") := by
  refine ⟨?_, ?_, ?_, ?_, ?_⟩
  · intro e hget
    simp [loadUrlFromCDN, hget]
  · intro resp e hget hread
    simp [loadUrlFromCDN, hget, ioReadAll, hread]
  · intro resp urlData e hget hread hdecode
    simp [loadUrlFromCDN, hget, ioReadAll, hread, hdecode]
  · intro resp hget hread hparse
    simp [loadUrlFromCDN, hget, ioReadAll, hread, jsonUnmarshal, hparse]
  · intro herr
    cases hget : env.httpGet (requestUrl pkgName env.unixTime CDNKey) with
    | error e => simp [loadUrlFromCDN, hget]
    | ok resp =>
      cases hread : resp.BodyErr with
      | some e => simp [loadUrlFromCDN, hget, ioReadAll, hread]
      | none =>
        cases hdecode : jsonUnmarshal resp.Body.flatten Url.zero with
        | mk urlData err =>
          cases err with
          | some e => simp [loadUrlFromCDN, hget, ioReadAll, hread, hdecode]
          | none => simp [loadUrlFromCDN, hget, ioReadAll, hread, hdecode] at herr

/-- C5, at a refused connection and at a body that breaks off. -/
theorem loadUrlFromCDN_returns_first_error_witness :
    ((loadUrlFromCDN exampleEnvGetFails exampleWorld).url,
     (loadUrlFromCDN exampleEnvGetFails exampleWorld).name,
     (loadUrlFromCDN exampleEnvGetFails exampleWorld).err) =
      ("", "", some { msg := "connection refused" }) ∧
    ((loadUrlFromCDN exampleEnvReadFails exampleWorld).url,
     (loadUrlFromCDN exampleEnvReadFails exampleWorld).name,
     (loadUrlFromCDN exampleEnvReadFails exampleWorld).err) =
      ("", "", some { msg := "unexpected EOF" }) :=
  ⟨(loadUrlFromCDN_returns_first_error exampleEnvGetFails exampleWorld).1
     { msg := "connection refused" } rfl,
   (loadUrlFromCDN_returns_first_error exampleEnvReadFails exampleWorld).2.1 _
     { msg := "unexpected EOF" } rfl rfl⟩

/-! ## Properties of the float64 operations -/

theorem ilog2Aux_spec (fuel n : Nat) (hfuel : n ≤ fuel) (hn : n ≠ 0) :
    2 ^ ilog2Aux fuel n ≤ n ∧ n < 2 ^ (ilog2Aux fuel n + 1) := by
  induction fuel generalizing n with
  | zero => omega
  | succ fuel ih =>
    unfold ilog2Aux
    by_cases h2 : n < 2
    · rw [if_pos h2]
      simp only [pow_zero, zero_add, pow_one]
      omega
    · rw [if_neg h2]
      obtain ⟨h1, h3⟩ := ih (n / 2) (by omega) (by omega)
      rw [pow_succ] at h3 ⊢
      rw [pow_succ]
      omega

theorem ilog2_spec (n : Nat) (hn : n ≠ 0) : 2 ^ ilog2 n ≤ n ∧ n < 2 ^ (ilog2 n + 1) :=
  ilog2Aux_spec n n (Nat.le_refl n) hn

theorem ilog2_unique (n k : Nat) (h1 : 2 ^ k ≤ n) (h2 : n < 2 ^ (k + 1)) : ilog2 n = k := by
  have hn : n ≠ 0 := by
    have := Nat.two_pow_pos k
    omega
  obtain ⟨h3, h4⟩ := ilog2_spec n hn
  have ha : ilog2 n < k + 1 := by
    by_contra hcon
    have : 2 ^ (k + 1) ≤ 2 ^ ilog2 n := Nat.pow_le_pow_right (by norm_num) (by omega)
    omega
  have hb : k < ilog2 n + 1 := by
    by_contra hcon
    have : 2 ^ (ilog2 n + 1) ≤ 2 ^ k := Nat.pow_le_pow_right (by norm_num) (by omega)
    omega
  omega

theorem ilog2_mono (a b : Nat) (ha : a ≠ 0) (hab : a ≤ b) : ilog2 a ≤ ilog2 b := by
  obtain ⟨h1, _⟩ := ilog2_spec a ha
  obtain ⟨_, h4⟩ := ilog2_spec b (by omega)
  by_contra hcon
  have : 2 ^ (ilog2 b + 1) ≤ 2 ^ ilog2 a := Nat.pow_le_pow_right (by norm_num) (by omega)
  omega

theorem ilog2_lt (n b : Nat) (hn : n ≠ 0) (h : n < 2 ^ b) : ilog2 n < b := by
  obtain ⟨h1, _⟩ := ilog2_spec n hn
  by_contra hcon
  have : 2 ^ b ≤ 2 ^ ilog2 n := Nat.pow_le_pow_right (by norm_num) (by omega)
  omega

theorem roundNE_ge (a b k : Nat) (hb : 0 < b) (h : k * b ≤ a) : k ≤ roundNE a b := by
  have hq : k ≤ a / b := (Nat.le_div_iff_mul_le hb).2 h
  unfold roundNE
  simp only
  split
  · exact hq
  · split
    · omega
    · split <;> omega

theorem roundNE_le (a b k : Nat) (hb : 0 < b) (h : a ≤ k * b) : roundNE a b ≤ k := by
  have hq : a / b ≤ k := by
    calc a / b ≤ k * b / b := Nat.div_le_div_right h
      _ = k := Nat.mul_div_cancel k hb
  have hmod := Nat.div_add_mod a b
  by_cases hlt : a / b < k
  · unfold roundNE
    simp only
    split
    · omega
    · split
      · omega
      · split <;> omega
  · have hqk : a / b = k := by omega
    have hr : a % b = 0 := by
      rw [hqk] at hmod
      have : b * k = k * b := Nat.mul_comm b k
      omega
    unfold roundNE
    simp only [hr]
    rw [if_pos (by omega)]
    omega

theorem roundNE_exact (m b : Nat) (hb : 0 < b) : roundNE (m * b) b = m := by
  unfold roundNE
  simp only [Nat.mul_mod_left, Nat.mul_div_cancel m hb]
  rw [if_pos (by omega)]

theorem roundNE_mono (a a1 b : Nat) (hb : 0 < b) (h : a ≤ a1) : roundNE a b ≤ roundNE a1 b := by
  have hq : a / b ≤ a1 / b := Nat.div_le_div_right h
  have hmod := Nat.div_add_mod a b
  have hmod1 := Nat.div_add_mod a1 b
  by_cases hlt : a / b < a1 / b
  · have h1 : roundNE a b ≤ a / b + 1 := by
      unfold roundNE
      simp only
      split
      · omega
      · split
        · omega
        · split <;> omega
    have h2 : a1 / b ≤ roundNE a1 b := roundNE_ge a1 b (a1 / b) hb (Nat.div_mul_le_self a1 b)
    omega
  · have hqq : a / b = a1 / b := by omega
    have hr : a % b ≤ a1 % b := by
      rw [hqq] at hmod
      omega
    unfold roundNE
    simp only [hqq]
    split_ifs <;> omega

theorem ilog2_one : ilog2 1 = 0 := by decide

theorem ratLog2_one (n : Nat) (hn : n ≠ 0) : ratLog2 n 1 = (ilog2 n : Int) := by
  obtain ⟨h1, _⟩ := ilog2_spec n hn
  unfold ratLog2 scaleBy
  simp only [ilog2_one, Nat.cast_zero, sub_zero, Int.natCast_nonneg, if_true, Int.toNat_ofNat,
    one_mul]
  rw [if_pos h1]

/-- The result of `ofRatio`, by the rounded significand `m` and the exponent `e`. -/
theorem ofRatio_eq (s : Bool) (n d m : Nat) (e : Int) (hn : n ≠ 0)
    (he : max (ratLog2 n d - 52) (-1074) = e)
    (hm : roundNE (scaleBy n d e).1 (scaleBy n d e).2 = m) :
    F64.ofRatio s n d =
      if m = 2 ^ 53 then (if 971 < e + 1 then F64.inf s else F64.fin s (2 ^ 52) (e + 1))
      else if 971 < e then F64.inf s
      else if m = 0 then F64.fin s 0 0 else F64.fin s m e := by
  unfold F64.ofRatio
  rw [if_neg hn]
  simp only [he, hm]
  by_cases h53 : m = 2 ^ 53
  · simp only [if_pos h53]
    rw [if_neg (by norm_num : ¬ (2 : Nat) ^ 52 = 0)]
  · simp only [if_neg h53]

/-- The float nearest to a positive integer below `2^64`: a normal number
whose value is the integer rounded to 53 significant bits. -/
theorem ofRatio_one (s : Bool) (n : Nat) (hn : 0 < n) (hn2 : n < 2 ^ 64) :
    ∃ m p : Nat, F64.ofRatio s n 1 = F64.fin s m ((p : Int) - 52) ∧ 2 ^ 52 ≤ m ∧ m < 2 ^ 53 ∧
      p ≤ 64 ∧
      m * 2 ^ p = roundInt53 n * 2 ^ 52 := by
  unfold roundInt53
  have hn0 : n ≠ 0 := by omega
  obtain ⟨h1, h2⟩ := ilog2_spec n hn0
  have hk : ilog2 n < 64 := ilog2_lt n 64 hn0 hn2
  have he : max (ratLog2 n 1 - 52) (-1074) = (ilog2 n : Int) - 52 := by
    rw [ratLog2_one n hn0]
    omega
  by_cases hsmall : ilog2 n ≤ 52
  · -- the integer has at most 53 bits: the conversion is exact
    have hsc : scaleBy n 1 ((ilog2 n : Int) - 52) = (n * 2 ^ (52 - ilog2 n), 1) := by
      unfold scaleBy
      by_cases h52 : ilog2 n = 52
      · rw [if_pos (by omega)]
        simp [h52]
      · rw [if_neg (by omega)]
        congr 2
        congr 1
        omega
    have hr : roundNE (n * 2 ^ (52 - ilog2 n)) 1 = n * 2 ^ (52 - ilog2 n) := by
      have := roundNE_exact (n * 2 ^ (52 - ilog2 n)) 1 (by norm_num)
      rwa [Nat.mul_one] at this
    have hres := ofRatio_eq s n 1 (n * 2 ^ (52 - ilog2 n)) ((ilog2 n : Int) - 52) hn0 he
      (by rw [hsc]; exact hr)
    have hlo : 2 ^ 52 ≤ n * 2 ^ (52 - ilog2 n) := by
      calc 2 ^ 52 = 2 ^ ilog2 n * 2 ^ (52 - ilog2 n) := by
            rw [← pow_add]; congr 1; omega
        _ ≤ n * 2 ^ (52 - ilog2 n) := Nat.mul_le_mul_right _ h1
    have hhi : n * 2 ^ (52 - ilog2 n) < 2 ^ 53 := by
      calc n * 2 ^ (52 - ilog2 n) < 2 ^ (ilog2 n + 1) * 2 ^ (52 - ilog2 n) :=
            Nat.mul_lt_mul_of_pos_right h2 (Nat.two_pow_pos _)
        _ = 2 ^ 53 := by rw [← pow_add]; congr 1; omega
    refine ⟨n * 2 ^ (52 - ilog2 n), ilog2 n, ?_, hlo, hhi, by omega, ?_⟩
    · rw [hres, if_neg (by omega), if_neg (by omega), if_neg (by omega)]
    · have hj : ilog2 n - 52 = 0 := by omega
      rw [hj, pow_zero, Nat.mul_one]
      have := roundNE_exact n 1 (by norm_num)
      rw [Nat.mul_one] at this
      rw [this, Nat.mul_assoc, ← pow_add]
      congr 2
      omega
  · -- more than 53 bits: the integer is rounded
    have hsc : scaleBy n 1 ((ilog2 n : Int) - 52) = (n, 2 ^ (ilog2 n - 52)) := by
      unfold scaleBy
      rw [if_pos (by omega)]
      congr 1
      rw [Nat.one_mul]
      congr 1
      omega
    have hpos : 0 < 2 ^ (ilog2 n - 52) := Nat.two_pow_pos _
    have hlo : 2 ^ 52 ≤ roundNE n (2 ^ (ilog2 n - 52)) := by
      apply roundNE_ge _ _ _ hpos
      rw [← pow_add]
      have : 52 + (ilog2 n - 52) = ilog2 n := by omega
      rw [this]
      exact h1
    have hhi : roundNE n (2 ^ (ilog2 n - 52)) ≤ 2 ^ 53 := by
      apply roundNE_le _ _ _ hpos
      rw [← pow_add]
      have : 53 + (ilog2 n - 52) = ilog2 n + 1 := by omega
      rw [this]
      omega
    have hres := ofRatio_eq s n 1 (roundNE n (2 ^ (ilog2 n - 52))) ((ilog2 n : Int) - 52) hn0 he
      (by rw [hsc])
    by_cases hround : roundNE n (2 ^ (ilog2 n - 52)) = 2 ^ 53
    · refine ⟨2 ^ 52, ilog2 n + 1, ?_, le_refl _, by norm_num, by omega, ?_⟩
      · rw [hres, if_pos hround, if_neg (by omega)]
        congr 1
        push_cast
        omega
      · rw [hround, Nat.mul_assoc, ← pow_add, ← pow_add, ← pow_add]
        congr 1
        omega
    · refine ⟨roundNE n (2 ^ (ilog2 n - 52)), ilog2 n, ?_, hlo, by omega, by omega, ?_⟩
      · rw [hres, if_neg hround, if_neg (by omega), if_neg (by omega)]
      · rw [Nat.mul_assoc, ← pow_add]
        congr 2
        omega

theorem roundInt53_small (n : Nat) (h : n < 2 ^ 53) : roundInt53 n = n := by
  unfold roundInt53
  by_cases hn : n = 0
  · subst hn
    decide
  · have hk : ilog2 n < 53 := ilog2_lt n 53 hn h
    have hj : ilog2 n - 52 = 0 := by omega
    rw [hj, pow_zero, Nat.mul_one]
    have := roundNE_exact n 1 (by norm_num)
    rwa [Nat.mul_one] at this

theorem roundInt53_bounds (n : Nat) (hn : n ≠ 0) :
    2 ^ ilog2 n ≤ roundInt53 n ∧ roundInt53 n ≤ 2 ^ (ilog2 n + 1) := by
  obtain ⟨h1, h2⟩ := ilog2_spec n hn
  have hpos : 0 < 2 ^ (ilog2 n - 52) := Nat.two_pow_pos _
  unfold roundInt53
  constructor
  · have h := roundNE_ge n (2 ^ (ilog2 n - 52)) (2 ^ (ilog2 n - (ilog2 n - 52))) hpos (by
      rw [← pow_add]
      have : ilog2 n - (ilog2 n - 52) + (ilog2 n - 52) = ilog2 n := by omega
      rw [this]
      exact h1)
    calc 2 ^ ilog2 n = 2 ^ (ilog2 n - (ilog2 n - 52)) * 2 ^ (ilog2 n - 52) := by
          rw [← pow_add]; congr 1; omega
      _ ≤ roundNE n (2 ^ (ilog2 n - 52)) * 2 ^ (ilog2 n - 52) := Nat.mul_le_mul_right _ h
  · have h := roundNE_le n (2 ^ (ilog2 n - 52)) (2 ^ (ilog2 n + 1 - (ilog2 n - 52))) hpos (by
      rw [← pow_add]
      have : ilog2 n + 1 - (ilog2 n - 52) + (ilog2 n - 52) = ilog2 n + 1 := by omega
      rw [this]
      omega)
    calc roundNE n (2 ^ (ilog2 n - 52)) * 2 ^ (ilog2 n - 52)
        ≤ 2 ^ (ilog2 n + 1 - (ilog2 n - 52)) * 2 ^ (ilog2 n - 52) := Nat.mul_le_mul_right _ h
      _ = 2 ^ (ilog2 n + 1) := by rw [← pow_add]; congr 1; omega

/-- The conversion of integers to floats is monotone. -/
theorem roundInt53_mono (a b : Nat) (hab : a ≤ b) : roundInt53 a ≤ roundInt53 b := by
  by_cases ha : a = 0
  · subst ha
    have : roundInt53 0 = 0 := by decide
    omega
  · have hb : b ≠ 0 := by omega
    have hk := ilog2_mono a b ha hab
    by_cases hj : ilog2 a - 52 = ilog2 b - 52
    · unfold roundInt53
      rw [hj]
      exact Nat.mul_le_mul_right _ (roundNE_mono a b _ (Nat.two_pow_pos _) hab)
    · have h1 := (roundInt53_bounds a ha).2
      have h2 := (roundInt53_bounds b hb).1
      have h3 : 2 ^ (ilog2 a + 1) ≤ 2 ^ ilog2 b := Nat.pow_le_pow_right (by norm_num) (by omega)
      omega

theorem ratLog2_le (n d : Nat) : ratLog2 n d ≤ (ilog2 n : Int) - (ilog2 d : Int) := by
  unfold ratLog2
  simp only
  split <;> omega

/-- A ratio of at most one rounds to a finite float `m * 2^e` with `e ≤ 0` and
`m ≤ 2^(-e)`: the quotient is at most one. -/
theorem ofRatio_le_one (s : Bool) (n d : Nat) (hn : 0 < n) (hnd : n ≤ d) :
    ∃ (m : Nat) (e : Int), F64.ofRatio s n d = F64.fin s m e ∧ e ≤ 0 ∧ m ≤ 2 ^ (-e).toNat := by
  have hn0 : n ≠ 0 := by omega
  have hlog := ratLog2_le n d
  have hmono := ilog2_mono n d hn0 hnd
  obtain ⟨E, hE⟩ : ∃ E, max (ratLog2 n d - 52) (-1074) = E := ⟨_, rfl⟩
  have hE1 : E ≤ -52 := by omega
  have hE2 : -1074 ≤ E := by omega
  have hsc : scaleBy n d E = (n * 2 ^ (-E).toNat, d) := by
    unfold scaleBy
    rw [if_neg (by omega)]
  have hm : roundNE (n * 2 ^ (-E).toNat) d ≤ 2 ^ (-E).toNat := by
    apply roundNE_le _ _ _ (by omega)
    rw [Nat.mul_comm]
    exact Nat.mul_le_mul_left _ hnd
  have hres := ofRatio_eq s n d (roundNE (n * 2 ^ (-E).toNat) d) E hn0 hE (by rw [hsc])
  by_cases h53 : roundNE (n * 2 ^ (-E).toNat) d = 2 ^ 53
  · rw [if_pos h53, if_neg (by omega)] at hres
    refine ⟨2 ^ 52, E + 1, hres, by omega, ?_⟩
    apply Nat.pow_le_pow_right (by norm_num)
    have h53le : 2 ^ 53 ≤ 2 ^ (-E).toNat := by omega
    have : 53 ≤ (-E).toNat := by
      by_contra hcon
      have : 2 ^ (-E).toNat < 2 ^ 53 := Nat.pow_lt_pow_right (by norm_num) (by omega)
      omega
    omega
  · rw [if_neg h53, if_neg (by omega)] at hres
    by_cases h0 : roundNE (n * 2 ^ (-E).toNat) d = 0
    · rw [if_pos h0] at hres
      exact ⟨0, 0, hres, le_refl _, by simp⟩
    · rw [if_neg h0] at hres
      exact ⟨_, E, hres, by omega, hm⟩

theorem toRat_fin_le_one (s : Bool) (m : Nat) (e : Int) (he : e ≤ 0) (hm : m ≤ 2 ^ (-e).toNat) :
    |F64.toRat (F64.fin s m e)| ≤ 1 := by
  have hexp : (2 : ℚ) ^ e = ((2 : ℚ) ^ (-e).toNat)⁻¹ := by
    rw [← zpow_natCast, ← zpow_neg]
    congr 1
    omega
  have hpos : (0 : ℚ) < (2 : ℚ) ^ (-e).toNat := by positivity
  have hmq : (m : ℚ) ≤ (2 : ℚ) ^ (-e).toNat := by exact_mod_cast hm
  have hval : (m : ℚ) * (2 : ℚ) ^ e ≤ 1 := by
    rw [hexp, ← div_eq_mul_inv, div_le_one hpos]
    exact hmq
  have hnonneg : (0 : ℚ) ≤ (m : ℚ) * (2 : ℚ) ^ e := by positivity
  unfold F64.toRat
  cases s
  · simp only [Bool.false_eq_true, if_false, one_mul]
    rw [abs_of_nonneg hnonneg]
    exact hval
  · simp only [if_true]
    rw [mul_assoc, neg_one_mul, abs_neg, abs_of_nonneg hnonneg]
    exact hval

theorem ofInt_zero : F64.ofInt 0 = F64.fin false 0 0 := by decide

/-- The float of a non-zero `int64`: a normal number with the sign of the
integer and the value of the integer rounded to 53 significant bits. -/
theorem ofInt_spec (i : Int) (hi : i ≠ 0) (h64 : isInt64 i) :
    ∃ m p : Nat, F64.ofInt i = F64.fin (decide (i < 0)) m ((p : Int) - 52) ∧ 2 ^ 52 ≤ m ∧
      m < 2 ^ 53 ∧ p ≤ 64 ∧ m * 2 ^ p = roundInt53 i.natAbs * 2 ^ 52 := by
  unfold isInt64 at h64
  exact ofRatio_one _ i.natAbs (by omega) (by omega)

theorem div_fin_fin (s t : Bool) (m m2 : Nat) (e e2 : Int) :
    F64.div (F64.fin s m e) (F64.fin t m2 e2) =
      if m2 = 0 then (if m = 0 then F64.nan else F64.inf (xor s t))
      else if e2 ≤ e then F64.ofRatio (xor s t) (m * 2 ^ (e - e2).toNat) m2
      else F64.ofRatio (xor s t) m (m2 * 2 ^ (e2 - e).toNat) := rfl

/-- The quotient of two finite floats, the first of a magnitude not above the
magnitude of the second, is a finite float of magnitude at most one. -/
theorem div_le_one (s t : Bool) (m m2 p p2 : Nat) (hm : m ≠ 0)
    (hle : m * 2 ^ p ≤ m2 * 2 ^ p2) :
    ∃ (m1 : Nat) (e1 : Int),
      F64.div (F64.fin s m ((p : Int) - 52)) (F64.fin t m2 ((p2 : Int) - 52)) =
        F64.fin (xor s t) m1 e1 ∧ e1 ≤ 0 ∧ m1 ≤ 2 ^ (-e1).toNat := by
  have hm2 : m2 ≠ 0 := by
    intro h0
    rw [h0, Nat.zero_mul] at hle
    have : 0 < m * 2 ^ p := Nat.mul_pos (by omega) (Nat.two_pow_pos _)
    omega
  rw [div_fin_fin, if_neg hm2]
  by_cases hp : p2 ≤ p
  · rw [if_pos (by omega)]
    have hexp : ((p : Int) - 52 - ((p2 : Int) - 52)).toNat = p - p2 := by omega
    rw [hexp]
    apply ofRatio_le_one _ _ _ (Nat.mul_pos (by omega) (Nat.two_pow_pos _))
    have h1 : m * 2 ^ (p - p2) * 2 ^ p2 = m * 2 ^ p := by
      rw [Nat.mul_assoc, ← pow_add]
      congr 2
      omega
    rw [← h1] at hle
    exact Nat.le_of_mul_le_mul_right hle (Nat.two_pow_pos _)
  · rw [if_neg (by omega)]
    have hexp : ((p2 : Int) - 52 - ((p : Int) - 52)).toNat = p2 - p := by omega
    rw [hexp]
    apply ofRatio_le_one _ _ _ (by omega)
    have h1 : m2 * 2 ^ (p2 - p) * 2 ^ p = m2 * 2 ^ p2 := by
      rw [Nat.mul_assoc, ← pow_add]
      congr 2
      omega
    rw [← h1] at hle
    exact Nat.le_of_mul_le_mul_right hle (Nat.two_pow_pos _)

/-- The quotient `float64(d) / float64(t)` for `0 ≤ d ≤ t`, `0 < t`: a finite
number between 0 and 1. -/
theorem div_ofInt_unit_interval (d t : Int) (hd : 0 ≤ d) (hdt : d ≤ t) (ht : 0 < t)
    (h64 : isInt64 t) :
    (F64.div (F64.ofInt d) (F64.ofInt t)).isFinite = true ∧
    0 ≤ F64.toRat (F64.div (F64.ofInt d) (F64.ofInt t)) ∧
    F64.toRat (F64.div (F64.ofInt d) (F64.ofInt t)) ≤ 1 := by
  obtain ⟨m2, p2, hB, hB1, hB2, hB3, hB4⟩ := ofInt_spec t (by omega) h64
  have hsB : decide (t < 0) = false := by simp; omega
  rw [hsB] at hB
  have hfin : ∃ (m1 : Nat) (e1 : Int),
      F64.div (F64.ofInt d) (F64.ofInt t) = F64.fin false m1 e1 ∧ e1 ≤ 0 ∧
        m1 ≤ 2 ^ (-e1).toNat := by
    by_cases hd0 : d = 0
    · subst hd0
      refine ⟨0, 0, ?_, le_refl _, by simp⟩
      rw [ofInt_zero, hB, div_fin_fin, if_neg (by omega)]
      split <;> simp [F64.ofRatio]
    · have h64d : isInt64 d := by
        unfold isInt64 at h64 ⊢
        omega
      obtain ⟨m, p, hA, hA1, hA2, hA3, hA4⟩ := ofInt_spec d hd0 h64d
      have hsA : decide (d < 0) = false := by simp; omega
      rw [hsA] at hA
      rw [hA, hB]
      have hmono : roundInt53 d.natAbs ≤ roundInt53 t.natAbs := roundInt53_mono _ _ (by omega)
      have := div_le_one false false m m2 p p2 (by omega) (by
        rw [hA4, hB4]
        exact Nat.mul_le_mul_right _ hmono)
      simpa using this
  obtain ⟨m1, e1, hv, he1, hm1⟩ := hfin
  rw [hv]
  have habs := toRat_fin_le_one false m1 e1 he1 hm1
  have hnonneg : 0 ≤ F64.toRat (F64.fin false m1 e1) := by
    unfold F64.toRat
    simp only [Bool.false_eq_true, if_false, one_mul]
    positivity
  exact ⟨rfl, hnonneg, (abs_le.1 habs).2⟩

theorem ratLog2_eq (n d : Nat) (k : Int) (hk : (ilog2 n : Int) - (ilog2 d : Int) = k)
    (h : (scaleBy n d k).2 ≤ (scaleBy n d k).1) : ratLog2 n d = k := by
  unfold ratLog2
  simp only [hk]
  rw [if_pos h]

/-- A normal float divided by one is that float: `m * 2^p / 2^52` is
representable and is not rounded. -/
theorem ofRatio_exact (s : Bool) (m p : Nat) (h1 : 2 ^ 52 ≤ m) (h2 : m < 2 ^ 53) (hp : p ≤ 64) :
    F64.ofRatio s (m * 2 ^ p) (2 ^ 52) = F64.fin s m ((p : Int) - 52) := by
  have hn0 : m * 2 ^ p ≠ 0 := by
    have : 0 < m * 2 ^ p := Nat.mul_pos (by omega) (Nat.two_pow_pos _)
    omega
  have hlogn : ilog2 (m * 2 ^ p) = 52 + p := by
    apply ilog2_unique
    · rw [pow_add]
      exact Nat.mul_le_mul_right _ h1
    · have : 2 ^ (52 + p + 1) = 2 ^ 53 * 2 ^ p := by
        rw [← pow_add]; congr 1; omega
      rw [this]
      exact Nat.mul_lt_mul_of_pos_right h2 (Nat.two_pow_pos _)
  have hlogd : ilog2 (2 ^ 52) = 52 := by decide
  have hlog : ratLog2 (m * 2 ^ p) (2 ^ 52) = (p : Int) := by
    apply ratLog2_eq
    · rw [hlogn, hlogd]
      push_cast
      omega
    · unfold scaleBy
      rw [if_pos (by omega)]
      simp only [Int.toNat_ofNat]
      exact Nat.mul_le_mul_right _ h1
  have hE : max (ratLog2 (m * 2 ^ p) (2 ^ 52) - 52) (-1074) = (p : Int) - 52 := by
    rw [hlog]
    omega
  have hround : roundNE (scaleBy (m * 2 ^ p) (2 ^ 52) ((p : Int) - 52)).1
      (scaleBy (m * 2 ^ p) (2 ^ 52) ((p : Int) - 52)).2 = m := by
    unfold scaleBy
    by_cases h52 : 52 ≤ p
    · rw [if_pos (by omega)]
      simp only
      have : ((p : Int) - 52).toNat = p - 52 := by omega
      rw [this, ← pow_add]
      have : 52 + (p - 52) = p := by omega
      rw [this]
      exact roundNE_exact m _ (Nat.two_pow_pos _)
    · rw [if_neg (by omega)]
      simp only
      have : (-((p : Int) - 52)).toNat = 52 - p := by omega
      rw [this, Nat.mul_assoc, ← pow_add]
      have : p + (52 - p) = 52 := by omega
      rw [this]
      exact roundNE_exact m _ (Nat.two_pow_pos _)
  rw [ofRatio_eq s _ _ m _ hn0 hE hround, if_neg (by omega), if_neg (by omega),
    if_neg (by omega)]

theorem ofInt_neg_one : F64.ofInt (-1) = F64.fin true (2 ^ 52) (-52) := by decide

/-- Dividing `float64(d)` by `float64(-1)` changes the sign and nothing else. -/
theorem div_ofInt_neg_one (d : Int) (h64 : isInt64 d) :
    F64.div (F64.ofInt d) (F64.ofInt (-1)) = F64.neg (F64.ofInt d) := by
  rw [ofInt_neg_one]
  by_cases hd0 : d = 0
  · subst hd0
    decide
  · obtain ⟨m, p, hA, hA1, hA2, hA3, _⟩ := ofInt_spec d hd0 h64
    rw [hA, div_fin_fin, if_neg (by norm_num), if_pos (by omega)]
    have hexp : ((p : Int) - 52 - (-52)).toNat = p := by omega
    rw [hexp, ofRatio_exact _ m p hA1 hA2 hA3]
    simp [F64.neg]

/-- A ratio with a numerator below `2^1000` rounds to a finite float. -/
theorem ofRatio_finite (s : Bool) (n d : Nat) (hn : n ≠ 0) (hlt : n < 2 ^ 1000) :
    ∃ (m : Nat) (e : Int), F64.ofRatio s n d = F64.fin s m e := by
  have hlog := ratLog2_le n d
  have hk := ilog2_lt n 1000 hn hlt
  obtain ⟨E, hE⟩ : ∃ E, max (ratLog2 n d - 52) (-1074) = E := ⟨_, rfl⟩
  have hE1 : E ≤ 947 := by omega
  rw [ofRatio_eq s n d _ E hn hE rfl]
  split
  · rw [if_neg (by omega)]
    exact ⟨_, _, rfl⟩
  · rw [if_neg (by omega)]
    split
    · exact ⟨_, _, rfl⟩
    · exact ⟨_, _, rfl⟩

theorem add_fin_fin (s t : Bool) (m m2 : Nat) (e e2 : Int) :
    F64.add (F64.fin s m e) (F64.fin t m2 e2) =
      if (if s then -1 else 1) * ((m * 2 ^ (e - min e e2).toNat : Nat) : Int) +
          (if t then -1 else 1) * ((m2 * 2 ^ (e2 - min e e2).toNat : Nat) : Int) = 0 then
        F64.fin (s && t) 0 0
      else if 0 ≤ min e e2 then
        F64.ofRatio
          (decide ((if s then -1 else 1) * ((m * 2 ^ (e - min e e2).toNat : Nat) : Int) +
            (if t then -1 else 1) * ((m2 * 2 ^ (e2 - min e e2).toNat : Nat) : Int) < 0))
          (((if s then -1 else 1) * ((m * 2 ^ (e - min e e2).toNat : Nat) : Int) +
            (if t then -1 else 1) * ((m2 * 2 ^ (e2 - min e e2).toNat : Nat) : Int)).natAbs *
            2 ^ (min e e2).toNat) 1
      else
        F64.ofRatio
          (decide ((if s then -1 else 1) * ((m * 2 ^ (e - min e e2).toNat : Nat) : Int) +
            (if t then -1 else 1) * ((m2 * 2 ^ (e2 - min e e2).toNat : Nat) : Int) < 0))
          ((if s then -1 else 1) * ((m * 2 ^ (e - min e e2).toNat : Nat) : Int) +
            (if t then -1 else 1) * ((m2 * 2 ^ (e2 - min e e2).toNat : Nat) : Int)).natAbs
          (2 ^ (-(min e e2)).toNat) := rfl

theorem natAbs_signed (s : Bool) (x : Nat) :
    ((if s then -1 else 1) * (x : Int)).natAbs = x := by
  cases s <;> simp

/-- The sum of two finite floats with significands below `2^53` and exponents
between -52 and 12 is a finite float. -/
theorem add_finite (s t : Bool) (m m2 : Nat) (e e2 : Int) (hm : m < 2 ^ 53) (hm2 : m2 < 2 ^ 53)
    (he1 : -52 ≤ e) (he2 : e ≤ 12) (he3 : -52 ≤ e2) (he4 : e2 ≤ 12) :
    ∃ (s1 : Bool) (m1 : Nat) (e1 : Int),
      F64.add (F64.fin s m e) (F64.fin t m2 e2) = F64.fin s1 m1 e1 := by
  rw [add_fin_fin]
  obtain ⟨r, hr⟩ : ∃ r : Int, (if s then -1 else 1) * ((m * 2 ^ (e - min e e2).toNat : Nat) : Int) +
      (if t then -1 else 1) * ((m2 * 2 ^ (e2 - min e e2).toNat : Nat) : Int) = r := ⟨_, rfl⟩
  rw [hr]
  have hX : 2 ^ (e - min e e2).toNat ≤ 2 ^ 64 :=
    Nat.pow_le_pow_right (by norm_num) (by omega)
  have hY : 2 ^ (e2 - min e e2).toNat ≤ 2 ^ 64 :=
    Nat.pow_le_pow_right (by norm_num) (by omega)
  have hZ : 2 ^ (min e e2).toNat ≤ 2 ^ 12 :=
    Nat.pow_le_pow_right (by norm_num) (by omega)
  have ha : m * 2 ^ (e - min e e2).toNat ≤ 2 ^ 53 * 2 ^ 64 := Nat.mul_le_mul (by omega) hX
  have hb : m2 * 2 ^ (e2 - min e e2).toNat ≤ 2 ^ 53 * 2 ^ 64 := Nat.mul_le_mul (by omega) hY
  have hrabs : r.natAbs ≤ 2 ^ 53 * 2 ^ 64 + 2 ^ 53 * 2 ^ 64 := by
    rw [← hr]
    refine le_trans (Int.natAbs_add_le _ _) ?_
    rw [natAbs_signed, natAbs_signed]
    omega
  by_cases hr0 : r = 0
  · rw [if_pos hr0]
    exact ⟨_, _, _, rfl⟩
  · rw [if_neg hr0]
    have hrpos : r.natAbs ≠ 0 := by omega
    split
    · have hn : r.natAbs * 2 ^ (min e e2).toNat ≠ 0 := by
        have : 0 < r.natAbs * 2 ^ (min e e2).toNat :=
          Nat.mul_pos (by omega) (Nat.two_pow_pos _)
        omega
      have hlt : r.natAbs * 2 ^ (min e e2).toNat < 2 ^ 1000 := by
        calc r.natAbs * 2 ^ (min e e2).toNat
            ≤ (2 ^ 53 * 2 ^ 64 + 2 ^ 53 * 2 ^ 64) * 2 ^ 12 := Nat.mul_le_mul hrabs hZ
          _ < 2 ^ 1000 := by norm_num
      obtain ⟨m1, e1, h⟩ := ofRatio_finite (decide (r < 0)) _ 1 hn hlt
      exact ⟨_, m1, e1, h⟩
    · have hlt : r.natAbs < 2 ^ 1000 := by
        calc r.natAbs ≤ 2 ^ 53 * 2 ^ 64 + 2 ^ 53 * 2 ^ 64 := hrabs
          _ < 2 ^ 1000 := by norm_num
      obtain ⟨m1, e1, h⟩ := ofRatio_finite (decide (r < 0)) _ (2 ^ (-(min e e2)).toNat) hrpos hlt
      exact ⟨_, m1, e1, h⟩

/-- The float of an `int64` is finite, with a significand below `2^53` that
is zero only for zero, and an exponent between -52 and 12. -/
theorem ofInt_fin (i : Int) (h64 : isInt64 i) :
    ∃ (s : Bool) (m : Nat) (e : Int), F64.ofInt i = F64.fin s m e ∧ m < 2 ^ 53 ∧ -52 ≤ e ∧
      e ≤ 12 ∧ (i ≠ 0 → m ≠ 0) := by
  by_cases hi : i = 0
  · subst hi
    exact ⟨false, 0, 0, ofInt_zero, by norm_num, by norm_num, by norm_num, fun h => absurd rfl h⟩
  · obtain ⟨m, p, h, h1, h2, h3, _⟩ := ofInt_spec i hi h64
    exact ⟨_, m, _, h, h2, by omega, by omega, fun _ => by omega⟩

/-- The difference of the floats of two `int64` values is finite. -/
theorem sub_ofInt_finite (a b : Int) (ha : isInt64 a) (hb : isInt64 b) :
    ∃ (s : Bool) (m : Nat) (e : Int), F64.sub (F64.ofInt a) (F64.ofInt b) = F64.fin s m e := by
  obtain ⟨s1, m1, e1, h1, hm1, hl1, hu1, _⟩ := ofInt_fin a ha
  obtain ⟨s2, m2, e2, h2, hm2, hl2, hu2, _⟩ := ofInt_fin b hb
  rw [h1, h2]
  unfold F64.sub F64.neg
  exact add_finite s1 (!s2) m1 m2 e1 e2 hm1 hm2 hl1 hu1 hl2 hu2

theorem lt_fin_fin (s t : Bool) (m m2 : Nat) (e e2 : Int) :
    F64.lt (F64.fin s m e) (F64.fin t m2 e2) =
      decide ((if s then -1 else 1) * ((m * 2 ^ (e - min e e2).toNat : Nat) : Int) <
        (if t then -1 else 1) * ((m2 * 2 ^ (e2 - min e e2).toNat : Nat) : Int)) := rfl

theorem toRat_scaled (s : Bool) (m : Nat) (e c : Int) (hc : c ≤ e) :
    F64.toRat (F64.fin s m e) =
      (((if s then -1 else 1) * ((m * 2 ^ (e - c).toNat : Nat) : Int) : Int) : ℚ) *
        (2 : ℚ) ^ c := by
  have hpow : ((2 : ℚ) ^ (e - c).toNat) * (2 : ℚ) ^ c = (2 : ℚ) ^ e := by
    rw [← zpow_natCast, ← zpow_add₀ (by norm_num : (2 : ℚ) ≠ 0)]
    congr 1
    omega
  unfold F64.toRat
  cases s
  · simp only [Bool.false_eq_true, if_false, one_mul]
    push_cast
    rw [← hpow]
    ring
  · simp only [if_true]
    push_cast
    rw [← hpow]
    ring

/-- The comparison of two finite floats is the comparison of their values. -/
theorem lt_fin_iff (s t : Bool) (m m2 : Nat) (e e2 : Int) :
    F64.lt (F64.fin s m e) (F64.fin t m2 e2) = true ↔
      F64.toRat (F64.fin s m e) < F64.toRat (F64.fin t m2 e2) := by
  rw [lt_fin_fin, decide_eq_true_iff, toRat_scaled s m e (min e e2) (min_le_left _ _),
    toRat_scaled t m2 e2 (min e e2) (min_le_right _ _)]
  have hpos : (0 : ℚ) < (2 : ℚ) ^ (min e e2) := by positivity
  rw [mul_lt_mul_right hpos, Int.cast_lt]

theorem ofInt_one : F64.ofInt 1 = F64.fin false (2 ^ 52) (-52) := by decide

theorem toRat_zero : F64.toRat (F64.fin false 0 0) = 0 := by
  simp [F64.toRat]

theorem toRat_one : F64.toRat (F64.fin false (2 ^ 52) (-52)) = 1 := by
  norm_num [F64.toRat]

/-- The quotient of the floats of two `int64` values, the second not zero, is
a finite float. -/
theorem div_ofInt_finite (d t : Int) (hd : isInt64 d) (ht : isInt64 t) (ht0 : t ≠ 0) :
    ∃ (s : Bool) (m : Nat) (e : Int), F64.div (F64.ofInt d) (F64.ofInt t) = F64.fin s m e := by
  obtain ⟨m2, p2, hB, hB1, hB2, hB3, _⟩ := ofInt_spec t ht0 ht
  by_cases hd0 : d = 0
  · subst hd0
    rw [ofInt_zero, hB, div_fin_fin, if_neg (by omega)]
    split
    · exact ⟨_, 0, 0, by rw [Nat.zero_mul]; unfold F64.ofRatio; rw [if_pos rfl]⟩
    · exact ⟨_, 0, 0, by unfold F64.ofRatio; rw [if_pos rfl]⟩
  · obtain ⟨m, p, hA, hA1, hA2, hA3, _⟩ := ofInt_spec d hd0 hd
    rw [hA, hB, div_fin_fin, if_neg (by omega)]
    split
    · have hk : 2 ^ ((p : Int) - 52 - ((p2 : Int) - 52)).toNat ≤ 2 ^ 64 :=
        Nat.pow_le_pow_right (by norm_num) (by omega)
      have hn : m * 2 ^ ((p : Int) - 52 - ((p2 : Int) - 52)).toNat ≠ 0 := by
        have : 0 < m * 2 ^ ((p : Int) - 52 - ((p2 : Int) - 52)).toNat :=
          Nat.mul_pos (by omega) (Nat.two_pow_pos _)
        omega
      have hlt : m * 2 ^ ((p : Int) - 52 - ((p2 : Int) - 52)).toNat < 2 ^ 1000 := by
        calc m * 2 ^ ((p : Int) - 52 - ((p2 : Int) - 52)).toNat
            ≤ 2 ^ 53 * 2 ^ 64 := Nat.mul_le_mul (by omega) hk
          _ < 2 ^ 1000 := by norm_num
      obtain ⟨m1, e1, h⟩ := ofRatio_finite (xor (decide (d < 0)) (decide (t < 0))) _ m2 hn hlt
      exact ⟨_, m1, e1, h⟩
    · have hlt : m < 2 ^ 1000 := by
        calc m < 2 ^ 53 := hA2
          _ < 2 ^ 1000 := by norm_num
      obtain ⟨m1, e1, h⟩ := ofRatio_finite (xor (decide (d < 0)) (decide (t < 0))) m
        (m2 * 2 ^ ((p2 : Int) - 52 - ((p : Int) - 52)).toNat) (by omega) hlt
      exact ⟨_, m1, e1, h⟩

/-! ## The values the progress writer publishes -/

theorem wrapInt64_isInt64 (x : Int) : isInt64 (wrapInt64 x) := by
  unfold isInt64 wrapInt64
  omega

theorem toRat_neg (x : F64) : F64.toRat (F64.neg x) = -F64.toRat x := by
  cases x with
  | nan => simp [F64.neg, F64.toRat]
  | inf s => simp [F64.neg, F64.toRat]
  | fin s m e => cases s <;> simp [F64.neg, F64.toRat]

theorem toRat_ofInt_small (i : Int) (h0 : 0 ≤ i) (h : i < 2 ^ 53) :
    F64.toRat (F64.ofInt i) = (i : ℚ) := by
  by_cases hi : i = 0
  · subst hi
    simp [ofInt_zero, F64.toRat]
  · obtain ⟨m, p, hA, _, _, _, hval⟩ := ofInt_spec i hi (by unfold isInt64; omega)
    have hs : decide (i < 0) = false := by simp; omega
    rw [roundInt53_small _ (by omega)] at hval
    rw [hA, hs]
    unfold F64.toRat
    simp only [Bool.false_eq_true, if_false, one_mul]
    have hq : (m : ℚ) * (2 : ℚ) ^ p = (i.natAbs : ℚ) * (2 : ℚ) ^ 52 := by exact_mod_cast hval
    have hint : ((i.natAbs : Nat) : Int) = i := Int.natAbs_of_nonneg h0
    have habs : ((i.natAbs : Nat) : ℚ) = (i : ℚ) := by
      calc ((i.natAbs : Nat) : ℚ) = (((i.natAbs : Nat) : Int) : ℚ) :=
            (Int.cast_natCast _).symm
        _ = (i : ℚ) := by rw [hint]
    rw [zpow_sub₀ (by norm_num : (2 : ℚ) ≠ 0), zpow_natCast]
    have h52 : ((2 : ℚ) ^ (52 : Int)) = (2 : ℚ) ^ (52 : Nat) := by norm_cast
    rw [h52, ← mul_div_assoc, hq, mul_div_assoc, div_self (by positivity), mul_one]
    exact habs

/-- On a bar from 0 to 1, `SetValue` leaves on the bar its argument brought
into that range. -/
theorem SetValue_unit (b : ProgressBar) (hmin : b.Min = F64.ofInt 0)
    (hmax : b.Max = F64.ofInt 1) (v : F64) :
    (b.SetValue v).Value =
      if F64.lt v (F64.ofInt 0) = true then F64.ofInt 0
      else if F64.lt (F64.ofInt 1) v = true then F64.ofInt 1 else v := by
  unfold ProgressBar.SetValue
  simp only [hmin, hmax]
  by_cases h : F64.lt v (F64.ofInt 0) = true
  · rw [if_pos h, if_pos h, if_neg (by decide)]
  · rw [if_neg h, if_neg h]

/-- A finite float brought into the range from 0 to 1 is a number of that
range, and is left as it is when it lies in the range. -/
theorem clamp_fin (s : Bool) (m : Nat) (e : Int) :
    ((if F64.lt (F64.fin s m e) (F64.ofInt 0) = true then F64.ofInt 0
      else if F64.lt (F64.ofInt 1) (F64.fin s m e) = true then F64.ofInt 1
      else F64.fin s m e).isFinite = true ∧
    0 ≤ F64.toRat (if F64.lt (F64.fin s m e) (F64.ofInt 0) = true then F64.ofInt 0
      else if F64.lt (F64.ofInt 1) (F64.fin s m e) = true then F64.ofInt 1
      else F64.fin s m e) ∧
    F64.toRat (if F64.lt (F64.fin s m e) (F64.ofInt 0) = true then F64.ofInt 0
      else if F64.lt (F64.ofInt 1) (F64.fin s m e) = true then F64.ofInt 1
      else F64.fin s m e) ≤ 1) ∧
    (0 ≤ F64.toRat (F64.fin s m e) → F64.toRat (F64.fin s m e) ≤ 1 →
      (if F64.lt (F64.fin s m e) (F64.ofInt 0) = true then F64.ofInt 0
        else if F64.lt (F64.ofInt 1) (F64.fin s m e) = true then F64.ofInt 1
        else F64.fin s m e) = F64.fin s m e) ∧
    (F64.toRat (F64.fin s m e) < 0 →
      (if F64.lt (F64.fin s m e) (F64.ofInt 0) = true then F64.ofInt 0
        else if F64.lt (F64.ofInt 1) (F64.fin s m e) = true then F64.ofInt 1
        else F64.fin s m e) = F64.ofInt 0) := by
  rw [ofInt_zero, ofInt_one]
  have hz : F64.lt (F64.fin s m e) (F64.fin false 0 0) = true ↔
      F64.toRat (F64.fin s m e) < 0 := by
    rw [lt_fin_iff, toRat_zero]
  have ho : F64.lt (F64.fin false (2 ^ 52) (-52)) (F64.fin s m e) = true ↔
      1 < F64.toRat (F64.fin s m e) := by
    rw [lt_fin_iff, toRat_one]
  by_cases h0 : F64.lt (F64.fin s m e) (F64.fin false 0 0) = true
  · rw [if_pos h0]
    refine ⟨⟨rfl, ?_, ?_⟩, fun h _ => absurd (hz.1 h0) (not_lt.2 h), fun _ => rfl⟩
    · rw [toRat_zero]
    · rw [toRat_zero]; norm_num
  · rw [if_neg h0]
    have h0q : ¬ F64.toRat (F64.fin s m e) < 0 := fun h => h0 (hz.2 h)
    by_cases h1 : F64.lt (F64.fin false (2 ^ 52) (-52)) (F64.fin s m e) = true
    · rw [if_pos h1]
      refine ⟨⟨rfl, ?_, ?_⟩, fun _ h => absurd (ho.1 h1) (not_lt.2 h), fun h => absurd h h0q⟩
      · rw [toRat_one]; norm_num
      · rw [toRat_one]
    · rw [if_neg h1]
      have h1q : ¬ 1 < F64.toRat (F64.fin s m e) := fun h => h1 (ho.2 h)
      exact ⟨⟨rfl, not_lt.1 h0q, not_lt.1 h1q⟩, fun _ _ => rfl, fun h => absurd h h0q⟩

set_option maxRecDepth 100000 in
/-- C6 as stated fails: for a download of unknown length (`totalSize = -1`)
the first `Write` of one byte passes the quotient -1 to the progress bar, which
then holds the number 0, not "unknown": the very value it holds for a download
of known length of which nothing has been counted yet.  `downloadFile` reaches
this state for a response without `Content-Length`. -/
theorem Write_unknown_total_publishes_zero :
    (exampleWriter (-1)).fraction [0] = F64.fin true (2 ^ 52) (-52) ∧
    ((exampleWriter (-1)).Write [0] 1000000).1.progress.Value = F64.fin false 0 0 ∧
    (F64.fin false 0 0).isFinite = true ∧
    F64.toRat (F64.fin false 0 0) = 0 ∧
    ((exampleWriter 10).Write [] 1000000).1.progress.Value = F64.fin false 0 0 ∧
    (downloadFile exampleEnvUnknownLength exampleWorld "out.bin" "u" NewProgressBar ⟨""⟩
      ⟨""⟩).pw.map (fun pw => pw.progress.Value) = some (F64.fin false 0 0) := by
  refine ⟨by decide, by decide, rfl, ?_, by decide, by decide⟩
  simp [F64.toRat]

/-- C6, amended: on every `Write` call the progress bar (from 0 to 1, as
`widget.NewProgressBar` makes it, and left so by `Write`) receives the float64
quotient of the updated counter by `totalSize` and then holds that quotient
brought into the range from 0 to 1.  For a known total (`totalSize > 0`) the
value held is a number between 0 and 1, and it is the quotient itself whenever
`0 ≤ downloadedSize ≤ totalSize`.  When `totalSize = -1` nothing is reported as
"unknown": the quotient is the float of the counter with the sign changed, and
the bar holds a zero (`0` exactly for a positive counter). -/
theorem Write_publishes_clamped_quotient (pw : progressWriter) (p : List UInt8) (t : Int)
    (hmin : pw.progress.Min = F64.ofInt 0) (hmax : pw.progress.Max = F64.ofInt 1) :
    ((pw.Write p t).1.progress.Min = F64.ofInt 0 ∧
      (pw.Write p t).1.progress.Max = F64.ofInt 1) ∧
    pw.fraction p =
      F64.div (F64.ofInt (pw.Write p t).1.downloadedSize) (F64.ofInt pw.totalSize) ∧
    (pw.Write p t).1.progress.Value =
      (if F64.lt (pw.fraction p) (F64.ofInt 0) = true then F64.ofInt 0
        else if F64.lt (F64.ofInt 1) (pw.fraction p) = true then F64.ofInt 1
        else pw.fraction p) ∧
    (isInt64 pw.totalSize → 0 < pw.totalSize →
      ((pw.Write p t).1.progress.Value.isFinite = true ∧
        0 ≤ F64.toRat (pw.Write p t).1.progress.Value ∧
        F64.toRat (pw.Write p t).1.progress.Value ≤ 1) ∧
      (0 ≤ (pw.Write p t).1.downloadedSize → (pw.Write p t).1.downloadedSize ≤ pw.totalSize →
        (pw.Write p t).1.progress.Value = pw.fraction p)) ∧
    (pw.totalSize = -1 →
      pw.fraction p = F64.neg (F64.ofInt (pw.Write p t).1.downloadedSize) ∧
      (0 ≤ (pw.Write p t).1.downloadedSize →
        (pw.Write p t).1.progress.Value.isFinite = true ∧
        (pw.Write p t).1.progress.Value.isZero = true) ∧
      (0 < (pw.Write p t).1.downloadedSize →
        (pw.Write p t).1.progress.Value = F64.ofInt 0)) := by
  have hq : pw.fraction p =
      F64.div (F64.ofInt (pw.Write p t).1.downloadedSize) (F64.ofInt pw.totalSize) := rfl
  have hval : (pw.Write p t).1.progress.Value =
      (if F64.lt (pw.fraction p) (F64.ofInt 0) = true then F64.ofInt 0
        else if F64.lt (F64.ofInt 1) (pw.fraction p) = true then F64.ofInt 1
        else pw.fraction p) := SetValue_unit pw.progress hmin hmax (pw.fraction p)
  have h64 : isInt64 (pw.Write p t).1.downloadedSize := wrapInt64_isInt64 _
  refine ⟨⟨hmin, hmax⟩, hq, hval, ?_, ?_⟩
  · intro htot hpos
    obtain ⟨s, m, e, hfin⟩ := div_ofInt_finite _ _ h64 htot (by omega)
    rw [← hq] at hfin
    obtain ⟨hrange, hsame, _⟩ := clamp_fin s m e
    rw [hval, hfin]
    refine ⟨hrange, fun h0 hle => hsame ?_ ?_⟩
    · rw [← hfin, hq]
      exact (div_ofInt_unit_interval _ _ h0 hle hpos htot).2.1
    · rw [← hfin, hq]
      exact (div_ofInt_unit_interval _ _ h0 hle hpos htot).2.2
  · intro hunknown
    have hneg : pw.fraction p = F64.neg (F64.ofInt (pw.Write p t).1.downloadedSize) := by
      rw [hq, hunknown]
      exact div_ofInt_neg_one _ h64
    have hpos : 0 < (pw.Write p t).1.downloadedSize →
        (pw.Write p t).1.progress.Value = F64.ofInt 0 := by
      intro hd
      obtain ⟨m, q, hA, hA1, _, _, _⟩ := ofInt_spec _ (by omega) h64
      have hs : decide ((pw.Write p t).1.downloadedSize < 0) = false :=
        decide_eq_false (by omega)
      rw [hs] at hA
      have hfin : pw.fraction p = F64.fin true m ((q : Int) - 52) := by
        rw [hneg, hA]
        rfl
      rw [hval, hfin]
      apply (clamp_fin true m _).2.2
      unfold F64.toRat
      simp only [if_true]
      have hm : (0 : ℚ) < (m : ℚ) := by
        have : 0 < m := by omega
        exact_mod_cast this
      have hp : (0 : ℚ) < (2 : ℚ) ^ ((q : Int) - 52) := by positivity
      nlinarith [mul_pos hm hp]
    refine ⟨hneg, fun h0 => ?_, hpos⟩
    by_cases hd0 : (pw.Write p t).1.downloadedSize = 0
    · have hfin : pw.fraction p = F64.fin true 0 0 := by
        rw [hneg, hd0, ofInt_zero]
        rfl
      have hsame := (clamp_fin true 0 0).2.1 (by simp [F64.toRat]) (by simp [F64.toRat])
      rw [hval, hfin, hsame]
      exact ⟨rfl, rfl⟩
    · rw [hpos (by omega), ofInt_zero]
      exact ⟨rfl, rfl⟩

set_option maxRecDepth 100000 in
/-- C6 amended, at the first byte of a 10-byte download and at the first byte
of a download of unknown length. -/
theorem Write_publishes_clamped_quotient_witness :
    ((exampleWriter 10).progress.Min = F64.ofInt 0 ∧
      (exampleWriter 10).progress.Max = F64.ofInt 1) ∧
    (((exampleWriter 10).Write [0] 1000000).1.progress.Value = (exampleWriter 10).fraction [0] ∧
      0 ≤ F64.toRat ((exampleWriter 10).Write [0] 1000000).1.progress.Value ∧
      F64.toRat ((exampleWriter 10).Write [0] 1000000).1.progress.Value ≤ 1) ∧
    ((exampleWriter (-1)).Write [0] 1000000).1.progress.Value = F64.ofInt 0 :=
  ⟨⟨rfl, rfl⟩,
   ⟨((Write_publishes_clamped_quotient (exampleWriter 10) [0] 1000000 rfl rfl).2.2.2.1
       (by decide) (by decide)).2 (by decide) (by decide),
    ((Write_publishes_clamped_quotient (exampleWriter 10) [0] 1000000 rfl rfl).2.2.2.1
       (by decide) (by decide)).1.2⟩,
   ((Write_publishes_clamped_quotient (exampleWriter (-1)) [0] 1000000 rfl rfl).2.2.2.2
      rfl).2.2 (by decide)⟩

theorem seconds_zero : Duration.Seconds 0 = F64.fin false 0 0 := by decide

set_option maxRecDepth 100000 in
/-- C7 as stated fails: at the first `Write` of one byte, with no time elapsed
since `startTime`, the divisor of the speed computation is zero and the
division is carried out: the speed is `+Inf` and is published as such, and the
remaining time is computed from it.  With `totalSize = -1` the remaining time
is computed as well. -/
theorem Write_divides_by_zero_elapsed :
    Duration.Seconds 0 = F64.fin false 0 0 ∧
    (exampleWriter 10).downloadSpeed [0] 0 = F64.inf false ∧
    ((exampleWriter 10).Write [0] 0).1.speed.Text = "下载速度: +Inf KB/s" ∧
    (exampleWriter 10).remainingTime [0] 0 = F64.fin false 0 0 ∧
    ((exampleWriter 10).Write [0] 0).1.remaining.Text = "剩余时间: 0.00 s" ∧
    ((exampleWriter (-1)).Write [0] 1000000).1.remaining.Text = "剩余时间: -0.00 s" := by
  decide

/-- C7, amended: `Write` has no guard.  On every call it computes the speed as
the float64 quotient of the updated counter by the elapsed seconds and the
remaining time as the float64 quotient of `totalSize - downloadedSize` by the
speed, publishes both, and returns `(len(p), nil)`.  A zero divisor does not
stop it: with no time elapsed and a non-zero counter the speed is an infinity
(`+Inf` for a positive counter) and the remaining time is a zero. -/
theorem Write_divisions_unguarded (pw : progressWriter) (p : List UInt8) (t : Int) :
    (pw.Write p t).2 = ((p.length : Int), none) ∧
    pw.downloadSpeed p t =
      F64.div (F64.ofInt (pw.Write p t).1.downloadedSize) (Duration.Seconds t) ∧
    pw.remainingTime p t =
      F64.div (F64.sub (F64.ofInt pw.totalSize) (F64.ofInt (pw.Write p t).1.downloadedSize))
        (pw.downloadSpeed p t) ∧
    (pw.Write p t).1.speed.Text =
      Sprintf "下载速度: %.2f KB/s" [Arg.float (F64.div (pw.downloadSpeed p t) (F64.ofInt 1024))] ∧
    (pw.Write p t).1.remaining.Text =
      Sprintf "剩余时间: %.2f s" [Arg.float (pw.remainingTime p t)] ∧
    ((pw.Write p 0).1.downloadedSize ≠ 0 →
      pw.downloadSpeed p 0 = F64.inf (decide ((pw.Write p 0).1.downloadedSize < 0)) ∧
      (isInt64 pw.totalSize → (pw.remainingTime p 0).isZero = true)) := by
  refine ⟨rfl, rfl, rfl, rfl, rfl, ?_⟩
  intro hne
  have h64 : isInt64 (pw.Write p 0).1.downloadedSize := wrapInt64_isInt64 _
  obtain ⟨m, q, hA, hA1, _, _, _⟩ := ofInt_spec _ hne h64
  have hspeed : pw.downloadSpeed p 0 =
      F64.inf (decide ((pw.Write p 0).1.downloadedSize < 0)) := by
    have : pw.downloadSpeed p 0 =
        F64.div (F64.ofInt (pw.Write p 0).1.downloadedSize) (Duration.Seconds 0) := rfl
    rw [this, seconds_zero, hA, div_fin_fin, if_pos rfl, if_neg (by omega)]
    simp
  refine ⟨hspeed, ?_⟩
  intro htot
  have hrem : pw.remainingTime p 0 =
      F64.div (F64.sub (F64.ofInt pw.totalSize) (F64.ofInt (pw.Write p 0).1.downloadedSize))
        (pw.downloadSpeed p 0) := rfl
  obtain ⟨s1, m1, e1, hsub⟩ := sub_ofInt_finite pw.totalSize _ htot h64
  rw [hrem, hspeed, hsub]
  rfl

/-- C7 amended, at the first byte of a 10-byte download with no time elapsed. -/
theorem Write_divisions_unguarded_witness :
    (exampleWriter 10).downloadSpeed [0] 0 = F64.inf false ∧
    ((exampleWriter 10).remainingTime [0] 0).isZero = true :=
  ⟨((Write_divisions_unguarded (exampleWriter 10) [0] 0).2.2.2.2.2 (by decide)).1.trans
     (by decide),
   ((Write_divisions_unguarded (exampleWriter 10) [0] 0).2.2.2.2.2 (by decide)).2 (by decide)⟩

end GoDownload
